import Mathlib

/-!
# Verification of the V2V-OSM vehicular network simulator core

Shallow embedding of the core of the V2V-OSM repository
(`main_sim_osm_pathloss.py`, `vehicles.py`) and proofs about it.

Conventions of the embedding:
* numpy float arrays become `List ℚ` (exact rationals, since the claims under
  study are about control flow, indexing and sign, not about rounding);
* numpy boolean masks become `List Bool`;
* boolean fancy indexing `xs[mask]` becomes `maskFilter`;
* fallible operations (`KeyError`, `IndexError`, numpy shape errors) become
  `Except`-valued functions;
* the external classifiers of `propagation.py` (absent from the sources) and
  the external pathloss formulas are abstract function parameters.
-/

set_option autoImplicit false

namespace V2VOSM

/-! ## Boolean mask indexing (numpy `xs[mask]`) -/

/-- numpy boolean fancy indexing `xs[mask]`: keep the elements of `xs`
whose corresponding entry of `mask` is `true`.  This is what
`idxs_other_vehs[is_nlos]`, `vehs.get_idxs('olos_los')[is_olos]` etc.
compute in `main_sim`. -/
def maskFilter {α : Type} (xs : List α) (mask : List Bool) : List α :=
  ((xs.zip mask).filter (fun p => p.2)).map (fun p => p.1)

/-- numpy `np.invert(mask)` on a boolean array. -/
def maskInvert (mask : List Bool) : List Bool :=
  mask.map (fun b => !b)

@[simp] theorem maskFilter_nil_left {α : Type} (mask : List Bool) :
    maskFilter ([] : List α) mask = [] := by
  cases mask <;> rfl

@[simp] theorem maskFilter_nil_right {α : Type} (xs : List α) :
    maskFilter xs [] = [] := by
  cases xs <;> rfl

@[simp] theorem maskFilter_cons_true {α : Type} (x : α) (xs : List α) (mask : List Bool) :
    maskFilter (x :: xs) (true :: mask) = x :: maskFilter xs mask := by
  simp [maskFilter]

@[simp] theorem maskFilter_cons_false {α : Type} (x : α) (xs : List α) (mask : List Bool) :
    maskFilter (x :: xs) (false :: mask) = maskFilter xs mask := by
  simp [maskFilter]

@[simp] theorem maskInvert_nil : maskInvert [] = [] := rfl

@[simp] theorem maskInvert_cons (b : Bool) (mask : List Bool) :
    maskInvert (b :: mask) = (!b) :: maskInvert mask := rfl

/-- Everything selected by a mask is an element of the base list. -/
theorem mem_of_mem_maskFilter {α : Type} {xs : List α} {mask : List Bool} {x : α}
    (hx : x ∈ maskFilter xs mask) : x ∈ xs := by
  induction xs generalizing mask with
  | nil => simp at hx
  | cons a xs ih =>
    cases mask with
    | nil => simp [maskFilter] at hx
    | cons b mask =>
      cases b with
      | true =>
        rw [maskFilter_cons_true, List.mem_cons] at hx
        rcases hx with h | h
        · subst h
          exact List.mem_cons_self x xs
        · exact List.mem_cons_of_mem a (ih h)
      | false =>
        rw [maskFilter_cons_false] at hx
        exact List.mem_cons_of_mem a (ih hx)

/-- `maskFilter xs mask` is a sublist of `xs`. -/
theorem maskFilter_sublist {α : Type} (xs : List α) (mask : List Bool) :
    (maskFilter xs mask).Sublist xs := by
  induction xs generalizing mask with
  | nil => simp
  | cons a xs ih =>
    cases mask with
    | nil => simp [maskFilter]
    | cons b mask =>
      cases b with
      | true =>
        rw [maskFilter_cons_true]
        exact (ih mask).cons₂ a
      | false =>
        rw [maskFilter_cons_false]
        exact (ih mask).cons a

/-- Selecting by a mask preserves `Nodup`. -/
theorem maskFilter_nodup {α : Type} {xs : List α} (mask : List Bool)
    (h : xs.Nodup) : (maskFilter xs mask).Nodup :=
  (maskFilter_sublist xs mask).nodup h

/-- When the mask has (at least) the length of the list, every element is
selected either by the mask or by its inversion. -/
theorem mem_maskFilter_or_invert {α : Type} {xs : List α} {mask : List Bool}
    (hlen : xs.length ≤ mask.length) {x : α} (hx : x ∈ xs) :
    x ∈ maskFilter xs mask ∨ x ∈ maskFilter xs (maskInvert mask) := by
  induction xs generalizing mask with
  | nil => simp at hx
  | cons a xs ih =>
    cases mask with
    | nil => simp at hlen
    | cons b mask =>
      simp only [List.length_cons, Nat.add_le_add_iff_right] at hlen
      rw [List.mem_cons] at hx
      rcases hx with rfl | hx
      · cases b
        · right
          rw [maskInvert_cons, Bool.not_false, maskFilter_cons_true]
          exact List.mem_cons_self x _
        · left
          rw [maskFilter_cons_true]
          exact List.mem_cons_self x _
      · rcases ih hlen hx with h | h
        · left
          cases b
          · rwa [maskFilter_cons_false]
          · rw [maskFilter_cons_true]
            exact List.mem_cons_of_mem a h
        · right
          cases b
          · rw [maskInvert_cons, Bool.not_false, maskFilter_cons_true]
            exact List.mem_cons_of_mem a h
          · rwa [maskInvert_cons, Bool.not_true, maskFilter_cons_false]

/-- On a duplicate-free list, a mask and its inversion select disjoint
sublists. -/
theorem not_mem_maskFilter_both {α : Type} {xs : List α} {mask : List Bool}
    (hnd : xs.Nodup) {x : α}
    (h1 : x ∈ maskFilter xs mask) (h2 : x ∈ maskFilter xs (maskInvert mask)) :
    False := by
  induction xs generalizing mask with
  | nil => simp at h1
  | cons a xs ih =>
    cases mask with
    | nil => simp [maskFilter] at h1
    | cons b mask =>
      rw [List.nodup_cons] at hnd
      cases b with
      | false =>
        rw [maskFilter_cons_false] at h1
        rw [maskInvert_cons, Bool.not_false, maskFilter_cons_true, List.mem_cons] at h2
        rcases h2 with rfl | h2
        · exact hnd.1 (mem_of_mem_maskFilter h1)
        · exact ih hnd.2 h1 h2
      | true =>
        rw [maskFilter_cons_true, List.mem_cons] at h1
        rw [maskInvert_cons, Bool.not_true, maskFilter_cons_false] at h2
        rcases h1 with rfl | h1
        · exact hnd.1 (mem_of_mem_maskFilter h2)
        · exact ih hnd.2 h1 h2

/-! ## Single-center mode: the classification keys of `main_sim`

`main_sim` (src/main_sim_osm_pathloss.py) picks a center vehicle and
classifies all `other` vehicles.  The external geometry tests
(`prop.veh_cons_are_nlos`, `prop.veh_cons_are_olos`,
`prop.check_if_cons_orthogonal`, all in the absent `propagation.py`) are
abstract boolean-mask parameters `isNlos`, `isOlos`, `isOrth`; the code under
study is the index bookkeeping built from them. -/

/-- `idxs_other_vehs = np.where(np.arange(count_veh) != idx_center_veh)[0]`. -/
def otherIdxs (count idxCenter : ℕ) : List ℕ :=
  (List.range count).filter (fun v => v ≠ idxCenter)

/-- `vehs.add_key('nlos', idxs_other_vehs[is_nlos])`. -/
def nlosKey (count idxCenter : ℕ) (isNlos : List Bool) : List ℕ :=
  maskFilter (otherIdxs count idxCenter) isNlos

/-- `vehs.add_key('olos_los', idxs_other_vehs[np.invert(is_nlos)])`. -/
def olosLosKey (count idxCenter : ℕ) (isNlos : List Bool) : List ℕ :=
  maskFilter (otherIdxs count idxCenter) (maskInvert isNlos)

/-- `vehs.add_key('olos', vehs.get_idxs('olos_los')[is_olos])`. -/
def olosKey (count idxCenter : ℕ) (isNlos isOlos : List Bool) : List ℕ :=
  maskFilter (olosLosKey count idxCenter isNlos) isOlos

/-- `vehs.add_key('los', vehs.get_idxs('olos_los')[np.invert(is_olos)])`. -/
def losKey (count idxCenter : ℕ) (isNlos isOlos : List Bool) : List ℕ :=
  maskFilter (olosLosKey count idxCenter isNlos) (maskInvert isOlos)

/-- `vehs.add_key('orth', vehs.get_idxs('nlos')[is_orthogonal])`. -/
def orthKey (count idxCenter : ℕ) (isNlos isOrth : List Bool) : List ℕ :=
  maskFilter (nlosKey count idxCenter isNlos) isOrth

/-- `vehs.add_key('par', vehs.get_idxs('nlos')[np.invert(is_orthogonal)])`. -/
def parKey (count idxCenter : ℕ) (isNlos isOrth : List Bool) : List ℕ :=
  maskFilter (nlosKey count idxCenter isNlos) (maskInvert isOrth)

theorem otherIdxs_nodup (count idxCenter : ℕ) : (otherIdxs count idxCenter).Nodup :=
  (List.nodup_range count).filter _

theorem olosLosKey_nodup (count idxCenter : ℕ) (isNlos : List Bool) :
    (olosLosKey count idxCenter isNlos).Nodup :=
  maskFilter_nodup _ (otherIdxs_nodup count idxCenter)

theorem nlosKey_nodup (count idxCenter : ℕ) (isNlos : List Bool) :
    (nlosKey count idxCenter isNlos).Nodup :=
  maskFilter_nodup _ (otherIdxs_nodup count idxCenter)

/-- A mask and its inversion split a duplicate-free list into two disjoint
parts whose union is the original list (given enough mask entries). -/
theorem maskFilter_partition {α : Type} {xs : List α} {mask : List Bool}
    (hnd : xs.Nodup) (hlen : xs.length ≤ mask.length) :
    (∀ x, ¬(x ∈ maskFilter xs mask ∧ x ∈ maskFilter xs (maskInvert mask))) ∧
    (∀ x, x ∈ xs ↔ x ∈ maskFilter xs mask ∨ x ∈ maskFilter xs (maskInvert mask)) := by
  constructor
  · intro x ⟨h1, h2⟩
    exact not_mem_maskFilter_both hnd h1 h2
  · intro x
    constructor
    · exact mem_maskFilter_or_invert hlen
    · intro h
      rcases h with h | h
      · exact mem_of_mem_maskFilter h
      · exact mem_of_mem_maskFilter h

/-- C1: in single-center mode the classification of the `other` vehicles is a
strict partition: `olos`/`los` are disjoint with union `olos_los`,
`orth`/`par` are disjoint with union `nlos`, `olos_los`/`nlos` are disjoint
with union `other`, `olos` avoids `nlos`, and every other-vehicle index lies
in exactly one of `los`, `olos`, `orth`, `par`. -/
theorem claim_C1_mainSim_partition (count idxCenter : ℕ) (isNlos isOlos isOrth : List Bool)
    (hN : isNlos.length = (otherIdxs count idxCenter).length)
    (hO : isOlos.length = (olosLosKey count idxCenter isNlos).length)
    (hR : isOrth.length = (nlosKey count idxCenter isNlos).length) :
    (∀ v, ¬(v ∈ olosKey count idxCenter isNlos isOlos ∧
            v ∈ losKey count idxCenter isNlos isOlos)) ∧
    (∀ v, v ∈ olosLosKey count idxCenter isNlos ↔
          v ∈ olosKey count idxCenter isNlos isOlos ∨
          v ∈ losKey count idxCenter isNlos isOlos) ∧
    (∀ v, ¬(v ∈ orthKey count idxCenter isNlos isOrth ∧
            v ∈ parKey count idxCenter isNlos isOrth)) ∧
    (∀ v, v ∈ nlosKey count idxCenter isNlos ↔
          v ∈ orthKey count idxCenter isNlos isOrth ∨
          v ∈ parKey count idxCenter isNlos isOrth) ∧
    (∀ v, ¬(v ∈ olosLosKey count idxCenter isNlos ∧ v ∈ nlosKey count idxCenter isNlos)) ∧
    (∀ v, v ∈ otherIdxs count idxCenter ↔
          v ∈ olosLosKey count idxCenter isNlos ∨ v ∈ nlosKey count idxCenter isNlos) ∧
    (∀ v ∈ olosKey count idxCenter isNlos isOlos, v ∉ nlosKey count idxCenter isNlos) ∧
    (∀ v ∈ otherIdxs count idxCenter,
      (v ∈ losKey count idxCenter isNlos isOlos ∧
        v ∉ olosKey count idxCenter isNlos isOlos ∧
        v ∉ orthKey count idxCenter isNlos isOrth ∧
        v ∉ parKey count idxCenter isNlos isOrth) ∨
      (v ∉ losKey count idxCenter isNlos isOlos ∧
        v ∈ olosKey count idxCenter isNlos isOlos ∧
        v ∉ orthKey count idxCenter isNlos isOrth ∧
        v ∉ parKey count idxCenter isNlos isOrth) ∨
      (v ∉ losKey count idxCenter isNlos isOlos ∧
        v ∉ olosKey count idxCenter isNlos isOlos ∧
        v ∈ orthKey count idxCenter isNlos isOrth ∧
        v ∉ parKey count idxCenter isNlos isOrth) ∨
      (v ∉ losKey count idxCenter isNlos isOlos ∧
        v ∉ olosKey count idxCenter isNlos isOlos ∧
        v ∉ orthKey count idxCenter isNlos isOrth ∧
        v ∈ parKey count idxCenter isNlos isOrth)) := by
  have hlenN : (otherIdxs count idxCenter).length ≤ isNlos.length := hN.ge
  have hlenNi : (otherIdxs count idxCenter).length ≤ (maskInvert isNlos).length := by
    rw [maskInvert, List.length_map]
    exact hN.ge
  have hlenO : (olosLosKey count idxCenter isNlos).length ≤ isOlos.length := hO.ge
  have hlenR : (nlosKey count idxCenter isNlos).length ≤ isOrth.length := hR.ge
  -- partition of `other` by `isNlos`
  have hTop := maskFilter_partition (otherIdxs_nodup count idxCenter) hlenN
  -- partition of `olos_los` by `isOlos`
  have hOl := maskFilter_partition (olosLosKey_nodup count idxCenter isNlos) hlenO
  -- partition of `nlos` by `isOrth`
  have hNl := maskFilter_partition (nlosKey_nodup count idxCenter isNlos) hlenR
  have dOlosLos : ∀ v, ¬(v ∈ olosLosKey count idxCenter isNlos ∧
      v ∈ nlosKey count idxCenter isNlos) := by
    intro v ⟨h1, h2⟩
    exact hTop.1 v ⟨h2, h1⟩
  have uTop : ∀ v, v ∈ otherIdxs count idxCenter ↔
      v ∈ olosLosKey count idxCenter isNlos ∨ v ∈ nlosKey count idxCenter isNlos := by
    intro v
    rw [hTop.2 v]
    exact Or.comm
  have subOlos : ∀ v ∈ olosKey count idxCenter isNlos isOlos,
      v ∈ olosLosKey count idxCenter isNlos := fun v h => mem_of_mem_maskFilter h
  have subLos : ∀ v ∈ losKey count idxCenter isNlos isOlos,
      v ∈ olosLosKey count idxCenter isNlos := fun v h => mem_of_mem_maskFilter h
  have subOrth : ∀ v ∈ orthKey count idxCenter isNlos isOrth,
      v ∈ nlosKey count idxCenter isNlos := fun v h => mem_of_mem_maskFilter h
  have subPar : ∀ v ∈ parKey count idxCenter isNlos isOrth,
      v ∈ nlosKey count idxCenter isNlos := fun v h => mem_of_mem_maskFilter h
  have hOlosNotNlos : ∀ v ∈ olosKey count idxCenter isNlos isOlos,
      v ∉ nlosKey count idxCenter isNlos := by
    intro v hv hnl
    exact dOlosLos v ⟨subOlos v hv, hnl⟩
  refine ⟨fun v h => hOl.1 v h, fun v => hOl.2 v, fun v h => hNl.1 v h, fun v => hNl.2 v,
    dOlosLos, uTop, hOlosNotNlos, ?_⟩
  intro v hv
  rcases (uTop v).mp hv with hOlL | hNlv
  · have hv4 : v ∉ orthKey count idxCenter isNlos isOrth := fun h =>
      dOlosLos v ⟨hOlL, subOrth v h⟩
    have hv5 : v ∉ parKey count idxCenter isNlos isOrth := fun h =>
      dOlosLos v ⟨hOlL, subPar v h⟩
    rcases (hOl.2 v).mp hOlL with hvo | hvl
    · exact Or.inr (Or.inl ⟨fun h => hOl.1 v ⟨hvo, h⟩, hvo, hv4, hv5⟩)
    · exact Or.inl ⟨hvl, fun h => hOl.1 v ⟨h, hvl⟩, hv4, hv5⟩
  · have hv1 : v ∉ olosKey count idxCenter isNlos isOlos := fun h =>
      dOlosLos v ⟨subOlos v h, hNlv⟩
    have hv2 : v ∉ losKey count idxCenter isNlos isOlos := fun h =>
      dOlosLos v ⟨subLos v h, hNlv⟩
    rcases (hNl.2 v).mp hNlv with hvo | hvp
    · exact Or.inr (Or.inr (Or.inl ⟨hv2, hv1, hvo, fun h => hNl.1 v ⟨hvo, h⟩⟩))
    · exact Or.inr (Or.inr (Or.inr ⟨hv2, hv1, fun h => hNl.1 v ⟨h, hvp⟩, hvp⟩))

/-- C1 witness: the partition theorem applied to a concrete 3-vehicle
configuration (center 0, vehicle 1 NLOS-orthogonal, vehicle 2 LOS). -/
theorem claim_C1_mainSim_partition_witness :
    ([true, false] : List Bool).length = (otherIdxs 3 0).length ∧
    (otherIdxs 3 0 = [1, 2] ∧ olosLosKey 3 0 [true, false] = [2] ∧
      nlosKey 3 0 [true, false] = [1] ∧ olosKey 3 0 [true, false] [false] = [] ∧
      losKey 3 0 [true, false] [false] = [2] ∧ orthKey 3 0 [true, false] [true] = [1] ∧
      parKey 3 0 [true, false] [true] = []) ∧
    (∀ v ∈ olosKey 3 0 [true, false] [false], v ∉ nlosKey 3 0 [true, false]) := by
  refine ⟨by decide, by decide, ?_⟩
  exact (claim_C1_mainSim_partition 3 0 [true, false] [false] [true]
    (by decide) (by decide) (by decide)).2.2.2.2.2.2.1

/-! ## The `Vehicles` relational store (src/vehicles.py)

numpy float arrays become `List ℚ`; the `idxs` dict becomes an association
list where `add_key` prepends (first match wins, so overwriting works like a
dict); a fancy-indexed read/write with an out-of-bounds index is an
`indexError`; a fancy-indexed write whose value length neither equals the
index count nor is 1 (numpy broadcasting) is a `shapeMismatch`. -/

/-- Errors surfaced by the store: python `KeyError`, numpy `IndexError` and
numpy shape-mismatch `ValueError`. -/
inductive VehErr : Type where
  | keyError : VehErr
  | indexError : VehErr
  | shapeMismatch : VehErr
deriving DecidableEq

/-- The `Vehicles` object: per-vehicle data plus relational arrays and the
key registry `self.idxs`.  Local graphs are opaque handles here (their
structure is studied separately for `generate_vehs`). -/
structure VehStore : Type where
  coordinates : List (ℚ × ℚ)
  points : List (ℚ × ℚ)
  graphs : List ℕ
  pathlosses : List ℚ
  distances : List ℚ
  nlos : List Bool
  idxs : List (String × List ℕ)
deriving DecidableEq

/-- `self.idxs[key]` (python dict lookup; `none` is a `KeyError`). -/
def lookupKey (k : String) : List (String × List ℕ) → Option (List ℕ)
  | [] => none
  | (k2, v) :: rest => if k = k2 then some v else lookupKey k rest

/-- numpy fancy-indexed gather `xs[is]` with `IndexError` on out-of-bounds. -/
def gatherE {α : Type} (xs : List α) : List ℕ → Except VehErr (List α)
  | [] => Except.ok []
  | i :: rest =>
    match xs.get? i with
    | none => Except.error VehErr.indexError
    | some x =>
      match gatherE xs rest with
      | Except.error e => Except.error e
      | Except.ok t => Except.ok (x :: t)

/-- Sequential elementwise writes `xs[i] := v` for each pair, in order
(the core of a numpy fancy-indexed assignment). -/
def writeAt {α : Type} (xs : List α) (ps : List (ℕ × α)) : List α :=
  ps.foldl (fun acc p => acc.set p.1 p.2) xs

/-- numpy fancy-indexed assignment `xs[is] = vs`: the value array must have
the index count's length or length 1 (broadcast), all indices must be in
bounds. -/
def scatterE {α : Type} [Inhabited α] (xs : List α) (is : List ℕ) (vs : List α) :
    Except VehErr (List α) :=
  if vs.length = is.length then
    if ∀ i ∈ is, i < xs.length then Except.ok (writeAt xs (is.zip vs))
    else Except.error VehErr.indexError
  else if vs.length = 1 then
    if ∀ i ∈ is, i < xs.length then
      Except.ok (writeAt xs (is.map (fun i => (i, vs.headI))))
    else Except.error VehErr.indexError
  else Except.error VehErr.shapeMismatch

namespace VehStore

/-- `Vehicles.allocate(size)`: reset the three relation arrays to zeroed
arrays of the new size.  (The key registry `idxs` is not touched by the
source.) -/
def allocate (s : VehStore) (size : ℕ) : VehStore :=
  { s with
    pathlosses := List.replicate size 0
    distances := List.replicate size 0
    nlos := List.replicate size false }

/-- `Vehicles.add_key(key, value)`. -/
def add_key (s : VehStore) (k : String) (v : List ℕ) : VehStore :=
  { s with idxs := (k, v) :: s.idxs }

/-- `Vehicles.get(key)`: `key is None or key == "all"` returns the full
coordinate array. -/
def get (s : VehStore) (key : Option String) : Except VehErr (List (ℚ × ℚ)) :=
  match key with
  | none => Except.ok s.coordinates
  | some k =>
    if k = "all" then Except.ok s.coordinates
    else
      match lookupKey k s.idxs with
      | none => Except.error VehErr.keyError
      | some is => gatherE s.coordinates is

/-- `Vehicles.get_points(key)`: only `None` is special. -/
def get_points (s : VehStore) (key : Option String) : Except VehErr (List (ℚ × ℚ)) :=
  match key with
  | none => Except.ok s.points
  | some k =>
    match lookupKey k s.idxs with
    | none => Except.error VehErr.keyError
    | some is => gatherE s.points is

/-- `Vehicles.get_graph(key)`: only `None` is special. -/
def get_graph (s : VehStore) (key : Option String) : Except VehErr (List ℕ) :=
  match key with
  | none => Except.ok s.graphs
  | some k =>
    match lookupKey k s.idxs with
    | none => Except.error VehErr.keyError
    | some is => gatherE s.graphs is

/-- `Vehicles.get_idxs(key)`. -/
def get_idxs (s : VehStore) (k : String) : Except VehErr (List ℕ) :=
  match lookupKey k s.idxs with
  | none => Except.error VehErr.keyError
  | some is => Except.ok is

/-- `Vehicles.set_pathlosses(key, values)`:
`self.pathlosses[self.idxs[key]] = values`. -/
def set_pathlosses (s : VehStore) (k : String) (values : List ℚ) :
    Except VehErr VehStore :=
  match lookupKey k s.idxs with
  | none => Except.error VehErr.keyError
  | some is =>
    match scatterE s.pathlosses is values with
    | Except.error e => Except.error e
    | Except.ok pl => Except.ok { s with pathlosses := pl }

/-- `Vehicles.get_pathlosses(key)`: `key is None or key == "all"` returns the
full pathloss array. -/
def get_pathlosses (s : VehStore) (key : Option String) : Except VehErr (List ℚ) :=
  match key with
  | none => Except.ok s.pathlosses
  | some k =>
    if k = "all" then Except.ok s.pathlosses
    else
      match lookupKey k s.idxs with
      | none => Except.error VehErr.keyError
      | some is => gatherE s.pathlosses is

/-- `Vehicles.set_distances(key, values)`. -/
def set_distances (s : VehStore) (k : String) (values : List ℚ) :
    Except VehErr VehStore :=
  match lookupKey k s.idxs with
  | none => Except.error VehErr.keyError
  | some is =>
    match scatterE s.distances is values with
    | Except.error e => Except.error e
    | Except.ok ds => Except.ok { s with distances := ds }

/-- `Vehicles.get_distances(key)`: only `None` is special. -/
def get_distances (s : VehStore) (key : Option String) : Except VehErr (List ℚ) :=
  match key with
  | none => Except.ok s.distances
  | some k =>
    match lookupKey k s.idxs with
    | none => Except.error VehErr.keyError
    | some is => gatherE s.distances is

end VehStore

/-! ## Lemmas about `writeAt` and `gatherE` -/

theorem writeAt_nil {α : Type} (xs : List α) : writeAt xs [] = xs := rfl

theorem writeAt_cons {α : Type} (xs : List α) (p : ℕ × α) (ps : List (ℕ × α)) :
    writeAt xs (p :: ps) = writeAt (xs.set p.1 p.2) ps := rfl

theorem writeAt_length {α : Type} (xs : List α) (ps : List (ℕ × α)) :
    (writeAt xs ps).length = xs.length := by
  induction ps generalizing xs with
  | nil => rfl
  | cons p ps ih => rw [writeAt_cons, ih, List.length_set]

/-- A position written by none of the pairs is unchanged. -/
theorem writeAt_get?_not_mem {α : Type} {xs : List α} {ps : List (ℕ × α)} {p : ℕ}
    (h : ∀ q ∈ ps, q.1 ≠ p) : (writeAt xs ps).get? p = xs.get? p := by
  induction ps generalizing xs with
  | nil => rfl
  | cons q ps ih =>
    rw [writeAt_cons, ih (fun r hr => h r (List.mem_cons_of_mem q hr))]
    exact List.get?_set_ne q.2 xs (h q (List.mem_cons_self q ps))

/-- With duplicate-free write positions, each pair lands at its position. -/
theorem writeAt_get?_mem {α : Type} {xs : List α} {ps : List (ℕ × α)}
    (hnd : (ps.map Prod.fst).Nodup) (t : ℕ) (ht : t < ps.length)
    (hb : (ps.get ⟨t, ht⟩).1 < xs.length) :
    (writeAt xs ps).get? (ps.get ⟨t, ht⟩).1 = some (ps.get ⟨t, ht⟩).2 := by
  induction ps generalizing xs t with
  | nil => exact absurd ht (Nat.not_lt_zero t)
  | cons q ps ih =>
    rw [List.map_cons, List.nodup_cons] at hnd
    cases t with
    | zero =>
      have e : (q :: ps).get ⟨0, ht⟩ = q := rfl
      rw [e] at hb ⊢
      rw [writeAt_cons]
      have hne : ∀ r ∈ ps, r.1 ≠ q.1 := by
        intro r hr heq
        exact hnd.1 (heq ▸ List.mem_map_of_mem Prod.fst hr)
      rw [writeAt_get?_not_mem hne]
      exact List.get?_set_eq_of_lt q.2 hb
    | succ t =>
      have ht2 : t < ps.length := Nat.succ_lt_succ_iff.mp ht
      have e : (q :: ps).get ⟨t + 1, ht⟩ = ps.get ⟨t, ht2⟩ := rfl
      rw [e] at hb ⊢
      rw [writeAt_cons]
      exact ih hnd.2 t ht2 (by rwa [List.length_set])

/-- When all pairs carry the same value, every written position holds it. -/
theorem writeAt_get?_const {α : Type} {xs : List α} {ps : List (ℕ × α)} {v : α} {p : ℕ}
    (hv : ∀ q ∈ ps, q.2 = v) (hp : p ∈ ps.map Prod.fst) (hb : p < xs.length) :
    (writeAt xs ps).get? p = some v := by
  induction ps generalizing xs with
  | nil => simp at hp
  | cons q ps ih =>
    rw [writeAt_cons]
    by_cases hmem : p ∈ ps.map Prod.fst
    · exact ih (fun r hr => hv r (List.mem_cons_of_mem q hr)) hmem
        (by rwa [List.length_set])
    · have hq : q.1 = p := by
        rw [List.map_cons, List.mem_cons] at hp
        rcases hp with h | h
        · exact h.symm
        · exact absurd h hmem
      have hne : ∀ r ∈ ps, r.1 ≠ p := by
        intro r hr heq
        exact hmem (heq ▸ List.mem_map_of_mem Prod.fst hr)
      rw [writeAt_get?_not_mem hne, ← hq,
        List.get?_set_eq_of_lt q.2 (hq ▸ hb)]
      rw [hv q (List.mem_cons_self q ps)]

theorem get?_replicate_of_lt {α : Type} (c : α) {n i : ℕ} (h : i < n) :
    (List.replicate n c).get? i = some c := by
  rw [List.get?_eq_get (by simpa using h)]
  simp

/-- Gathering from a constant array yields a constant array. -/
theorem gatherE_replicate {α : Type} (c : α) (n : ℕ) (is : List ℕ)
    (hb : ∀ i ∈ is, i < n) :
    gatherE (List.replicate n c) is = Except.ok (List.replicate is.length c) := by
  induction is with
  | nil => rfl
  | cons i is ih =>
    have hi : i < n := hb i (List.mem_cons_self i is)
    rw [gatherE, get?_replicate_of_lt c hi, ih (fun j hj => hb j (List.mem_cons_of_mem i hj))]
    rfl

/-- Gathering with in-bounds indices succeeds. -/
theorem gatherE_ok {α : Type} (xs : List α) (is : List ℕ)
    (hb : ∀ i ∈ is, i < xs.length) :
    ∃ ys, gatherE xs is = Except.ok ys ∧ ys.length = is.length := by
  induction is with
  | nil => exact ⟨[], rfl, rfl⟩
  | cons i is ih =>
    obtain ⟨ys, hys, hlen⟩ := ih (fun j hj => hb j (List.mem_cons_of_mem i hj))
    have hi : i < xs.length := hb i (List.mem_cons_self i is)
    rw [gatherE, List.get?_eq_get hi, hys]
    exact ⟨_, rfl, by simpa using hlen⟩

/-! ## Claims about the store: allocate (C6), set_pathlosses (C7), "all" (C10) -/

/-- An empty store, as built before any vehicles/relations exist. -/
def storeA : VehStore :=
  { coordinates := [], points := [], graphs := [], pathlosses := [], distances := [],
    nlos := [], idxs := [] }

/-- C6 counterexample: `allocate` does NOT invalidate previously registered
relation keys.  After `allocate(2)`, registering key `"a" ↦ [0]` and then
re-allocating with size 1, the old key is still readable and returns the
fresh zero. -/
theorem claim_C6_counterexample :
    VehStore.get_pathlosses
      (VehStore.allocate (VehStore.add_key (VehStore.allocate storeA 2) "a" [0]) 1)
      (some "a") = Except.ok [0] := by
  rfl

/-- C6 (amended): `allocate(size)` resizes the three relation arrays to
zero-initialized arrays of the new size, but leaves the key registry
untouched; a previously registered key remains readable whenever its indices
are within the new size (and then reads zeros). -/
theorem claim_C6_allocate (s : VehStore) (size : ℕ) :
    (VehStore.allocate s size).pathlosses = List.replicate size 0 ∧
    (VehStore.allocate s size).distances = List.replicate size 0 ∧
    (VehStore.allocate s size).nlos = List.replicate size false ∧
    (VehStore.allocate s size).idxs = s.idxs ∧
    (∀ k is, k ≠ "all" → lookupKey k s.idxs = some is → (∀ i ∈ is, i < size) →
      VehStore.get_pathlosses (VehStore.allocate s size) (some k) =
        Except.ok (List.replicate is.length 0)) := by
  refine ⟨rfl, rfl, rfl, rfl, ?_⟩
  intro k is hk hl hb
  show (if k = "all" then Except.ok (VehStore.allocate s size).pathlosses
    else match lookupKey k (VehStore.allocate s size).idxs with
      | none => Except.error VehErr.keyError
      | some is => gatherE (VehStore.allocate s size).pathlosses is) =
    Except.ok (List.replicate is.length 0)
  rw [if_neg hk]
  show (match lookupKey k s.idxs with
    | none => Except.error VehErr.keyError
    | some is => gatherE (List.replicate size (0 : ℚ)) is) =
    Except.ok (List.replicate is.length 0)
  rw [hl]
  exact gatherE_replicate 0 size is hb

/-- C6 witness: the amended allocate contract evaluated on a concrete store
(key `"a" ↦ [0]` survives a re-allocation to size 1 and reads `[0]`). -/
theorem claim_C6_allocate_witness :
    (VehStore.allocate (VehStore.add_key (VehStore.allocate storeA 2) "a" [0]) 1).idxs =
      [("a", [0])] ∧
    VehStore.get_pathlosses
      (VehStore.allocate (VehStore.add_key (VehStore.allocate storeA 2) "a" [0]) 1)
      (some "a") = Except.ok [0] := by
  have h := claim_C6_allocate (VehStore.add_key (VehStore.allocate storeA 2) "a" [0]) 1
  refine ⟨h.2.2.2.1.trans rfl, ?_⟩
  have h2 := h.2.2.2.2 "a" [0] (by decide) rfl (by decide)
  simpa using h2

/-- A store with two allocated relation slots and the key `"a" ↦ [0, 1]`. -/
def storeB : VehStore :=
  VehStore.add_key (VehStore.allocate storeA 2) "a" [0, 1]

/-- C7 counterexample: a values array of length 1 against a key of 2 indices
does NOT fail; numpy broadcasting silently writes the value to both slots. -/
theorem claim_C7_counterexample :
    VehStore.set_pathlosses storeB "a" [5] =
      Except.ok { storeB with pathlosses := [5, 5] } := by
  rfl

/-- C7 (amended): `set_pathlosses(key, values)` fails with a shape-mismatch
error when the values length differs from the key's index count, UNLESS the
values array has length 1, in which case numpy broadcasting silently writes
the single value at every key index; when the lengths match it writes exactly
the key's indices and no others. -/
theorem claim_C7_set_pathlosses (s : VehStore) (k : String) (is : List ℕ)
    (values : List ℚ)
    (hk : lookupKey k s.idxs = some is)
    (hb : ∀ i ∈ is, i < s.pathlosses.length) :
    (values.length ≠ is.length → values.length ≠ 1 →
      VehStore.set_pathlosses s k values = Except.error VehErr.shapeMismatch) ∧
    (values.length = is.length →
      ∃ pl, VehStore.set_pathlosses s k values = Except.ok { s with pathlosses := pl } ∧
        pl.length = s.pathlosses.length ∧
        (∀ p, p ∉ is → pl.get? p = s.pathlosses.get? p) ∧
        (is.Nodup → ∀ t, (ht : t < is.length) → ∀ (hv : t < values.length),
          pl.get? (is.get ⟨t, ht⟩) = some (values.get ⟨t, hv⟩))) ∧
    (∀ v, values = [v] → values.length ≠ is.length →
      ∃ pl, VehStore.set_pathlosses s k values = Except.ok { s with pathlosses := pl } ∧
        (∀ p, p ∉ is → pl.get? p = s.pathlosses.get? p) ∧
        (∀ p ∈ is, pl.get? p = some v)) := by
  have hset : VehStore.set_pathlosses s k values =
      (match scatterE s.pathlosses is values with
        | Except.error e => Except.error e
        | Except.ok pl => Except.ok { s with pathlosses := pl }) := by
    rw [VehStore.set_pathlosses, hk]
  refine ⟨?_, ?_, ?_⟩
  · intro hne h1
    have hsc : scatterE s.pathlosses is values = Except.error VehErr.shapeMismatch := by
      rw [scatterE, if_neg hne, if_neg h1]
    rw [hset, hsc]
  · intro hlen
    refine ⟨writeAt s.pathlosses (is.zip values), ?_, writeAt_length _ _, ?_, ?_⟩
    · have hsc : scatterE s.pathlosses is values =
          Except.ok (writeAt s.pathlosses (is.zip values)) := by
        rw [scatterE, if_pos hlen, if_pos hb]
      rw [hset, hsc]
    · intro p hp
      refine writeAt_get?_not_mem ?_
      intro q hq heq
      exact hp (heq ▸ (List.of_mem_zip hq).1)
    · intro hnd t ht hv
      have hzl : (is.zip values).length = is.length := by
        rw [List.length_zip, hlen, Nat.min_self]
      have ht2 : t < (is.zip values).length := hzl ▸ ht
      have hfst : (is.zip values).map Prod.fst = is :=
        List.map_fst_zip is values hlen.ge
      have hnd2 : ((is.zip values).map Prod.fst).Nodup := by
        rw [hfst]
        exact hnd
      have hget : (is.zip values).get ⟨t, ht2⟩ = (is.get ⟨t, ht⟩, values.get ⟨t, hv⟩) := by
        apply List.get_zip
      have hw := @writeAt_get?_mem ℚ s.pathlosses (is.zip values) hnd2 t ht2
        (by rw [hget]; exact hb _ (List.get_mem is t ht))
      rw [hget] at hw
      exact hw
  · intro v hveq hne
    subst hveq
    refine ⟨writeAt s.pathlosses (is.map (fun i => (i, v))), ?_, ?_, ?_⟩
    · have hsc : scatterE s.pathlosses is [v] =
          Except.ok (writeAt s.pathlosses (is.map (fun i => (i, v)))) := by
        rw [scatterE, if_neg hne, if_pos (show ([v] : List ℚ).length = 1 from rfl),
          if_pos hb]
        rfl
      rw [hset, hsc]
    · intro p hp
      refine writeAt_get?_not_mem ?_
      intro q hq heq
      rw [List.mem_map] at hq
      obtain ⟨i, hi, rfl⟩ := hq
      exact hp (heq ▸ hi)
    · intro p hp
      refine writeAt_get?_const ?_ ?_ (hb p hp)
      · intro q hq
        rw [List.mem_map] at hq
        obtain ⟨i, _, rfl⟩ := hq
        rfl
      · rw [List.map_map]
        have : (Prod.fst ∘ fun i => ((i : ℕ), v)) = id := rfl
        rw [this, List.map_id]
        exact hp

/-- C7 witness: the amended contract at a concrete store: values `[5]`
against key indices `[0, 1]` broadcasts (no error), and a matching-length
write `[3, 4]` lands exactly at the key's indices. -/
theorem claim_C7_set_pathlosses_witness :
    lookupKey "a" storeB.idxs = some [0, 1] ∧
    (∃ pl, VehStore.set_pathlosses storeB "a" [3, 4] =
        Except.ok { storeB with pathlosses := pl } ∧
      pl.length = storeB.pathlosses.length ∧
      (∀ p, p ∉ ([0, 1] : List ℕ) → pl.get? p = storeB.pathlosses.get? p) ∧
      (([0, 1] : List ℕ).Nodup → ∀ t, (ht : t < ([0, 1] : List ℕ).length) →
        ∀ (hv : t < ([3, 4] : List ℚ).length),
        pl.get? (([0, 1] : List ℕ).get ⟨t, ht⟩) = some (([3, 4] : List ℚ).get ⟨t, hv⟩))) := by
  have h := claim_C7_set_pathlosses storeB "a" [0, 1] [3, 4] rfl (by decide)
  exact ⟨rfl, h.2.1 rfl⟩

/-- C10: only `get` and `get_pathlosses` special-case the label `"all"`
(returning the full arrays, also for `key = None`); `get_points`, `get_graph`
and `get_distances` treat `"all"` as an ordinary key, raising `KeyError`
unless a key literally named `"all"` was registered. -/
theorem claim_C10_all_label (s : VehStore) :
    VehStore.get s none = Except.ok s.coordinates ∧
    VehStore.get_pathlosses s none = Except.ok s.pathlosses ∧
    VehStore.get s (some "all") = Except.ok s.coordinates ∧
    VehStore.get_pathlosses s (some "all") = Except.ok s.pathlosses ∧
    (lookupKey "all" s.idxs = none →
      VehStore.get_points s (some "all") = Except.error VehErr.keyError ∧
      VehStore.get_graph s (some "all") = Except.error VehErr.keyError ∧
      VehStore.get_distances s (some "all") = Except.error VehErr.keyError) ∧
    (∀ is, lookupKey "all" s.idxs = some is →
      VehStore.get_points s (some "all") = gatherE s.points is ∧
      VehStore.get_graph s (some "all") = gatherE s.graphs is ∧
      VehStore.get_distances s (some "all") = gatherE s.distances is) := by
  refine ⟨rfl, rfl, rfl, rfl, ?_, ?_⟩
  · intro h
    refine ⟨?_, ?_, ?_⟩
    · rw [VehStore.get_points, h]
    · rw [VehStore.get_graph, h]
    · rw [VehStore.get_distances, h]
  · intro is h
    refine ⟨?_, ?_, ?_⟩
    · rw [VehStore.get_points, h]
    · rw [VehStore.get_graph, h]
    · rw [VehStore.get_distances, h]

/-- C10 witness: on a store with no `"all"` key the three plain getters
raise `KeyError` for `"all"`, while `get`/`get_pathlosses` return the full
arrays; registering a key literally named `"all"` makes `get_points`
succeed. -/
theorem claim_C10_all_label_witness :
    (lookupKey "all" storeB.idxs = none ∧
      VehStore.get storeB (some "all") = Except.ok storeB.coordinates ∧
      VehStore.get_pathlosses storeB (some "all") = Except.ok storeB.pathlosses ∧
      VehStore.get_points storeB (some "all") = Except.error VehErr.keyError ∧
      VehStore.get_graph storeB (some "all") = Except.error VehErr.keyError ∧
      VehStore.get_distances storeB (some "all") = Except.error VehErr.keyError) ∧
    (lookupKey "all" (VehStore.add_key storeB "all" []).idxs = some [] ∧
      VehStore.get_points (VehStore.add_key storeB "all" []) (some "all") =
        Except.ok []) := by
  have h1 := claim_C10_all_label storeB
  have h2 := claim_C10_all_label (VehStore.add_key storeB "all" [])
  have e1 : lookupKey "all" storeB.idxs = none := rfl
  have e2 : lookupKey "all" (VehStore.add_key storeB "all" []).idxs = some [] := rfl
  refine ⟨⟨e1, h1.2.2.1, h1.2.2.2.1, (h1.2.2.2.2.1 e1).1, (h1.2.2.2.2.1 e1).2.1,
    (h1.2.2.2.2.1 e1).2.2⟩, e2, ?_⟩
  rw [(h2.2.2.2.2.2 [] e2).1]
  rfl

/-! ## Vehicle generation: `generate_vehs` (src/vehicles.py)

Street geometries are represented by arc length: a street is its two endpoint
node ids plus the length of its polyline, a point on the street is an
arc-length position, and a sub-segment is an arc-length interval.  Vehicle
nodes carry the `'v' + str(iteration)` prefix, so they are a separate
constructor and can never collide with street endpoint ids. -/

/-- A node of a per-vehicle local graph: an original street endpoint (an
OSM integer id) or a synthetic `'v<iteration>'` vehicle node. -/
inductive VehNode : Type where
  | street (id : ℕ) : VehNode
  | veh (iteration : ℕ) : VehNode
deriving DecidableEq

/-- One edge of the street graph, with its geometry length
(`street[0]`, `street[1]`, `street[2]['geometry'].length`). -/
structure StreetEdge : Type where
  nodeA : ℕ
  nodeB : ℕ
  geomLen : ℚ
deriving DecidableEq

instance : Inhabited StreetEdge := ⟨⟨0, 0, 0⟩⟩

/-- A sub-segment of a street geometry, as an arc-length interval. -/
structure SubGeom : Type where
  startPos : ℚ
  endPos : ℚ
deriving DecidableEq

/-- The length of a sub-segment (shapely `geom.length`). -/
def SubGeom.len (g : SubGeom) : ℚ := g.endPos - g.startPos

/-- Modelled from the spec: `geom_o.split_line_at_point` (the file
`geometry.py` is not among the sources) "splits the street's geometry at
that point into two sub-segments".  With geometries as arc length, the point
is a position `s` along a street of length `L` and the sub-segments are the
intervals before and after it. -/
def split_line_at_point (geomLen s : ℚ) : SubGeom × SubGeom :=
  (⟨0, s⟩, ⟨s, geomLen⟩)

/-- `edge_attr = {'geometry': ..., 'length': ..., 'is_veh_edge': True}`. -/
structure EdgeAttr : Type where
  geometry : SubGeom
  length : ℚ
  is_veh_edge : Bool
deriving DecidableEq

/-- The per-vehicle local graph built by one iteration of `generate_vehs`
(a `nx.MultiGraph` with the `node_veh` graph attribute). -/
structure VehGraph : Type where
  node_veh : VehNode
  nodes : List VehNode
  edges : List (VehNode × VehNode × EdgeAttr)
deriving DecidableEq

instance : Inhabited VehGraph := ⟨⟨VehNode.veh 0, [], []⟩⟩

/-- networkx `add_node`: a node already present is not added again. -/
def addNode (ns : List VehNode) (x : VehNode) : List VehNode :=
  if x ∈ ns then ns else ns ++ [x]

/-- One iteration of the loop of `generate_vehs`: add the vehicle node and
the two street endpoints, split the geometry at the vehicle's position, and
add the two tagged vehicle edges. -/
def genVehGraph (street : StreetEdge) (iteration : ℕ) (pointVeh : ℚ) : VehGraph :=
  { node_veh := VehNode.veh iteration
    nodes := addNode (addNode (addNode [] (VehNode.veh iteration))
      (VehNode.street street.nodeA)) (VehNode.street street.nodeB)
    edges :=
      [(VehNode.veh iteration, VehNode.street street.nodeA,
        { geometry := (split_line_at_point street.geomLen pointVeh).1,
          length := (split_line_at_point street.geomLen pointVeh).1.len,
          is_veh_edge := true }),
       (VehNode.veh iteration, VehNode.street street.nodeB,
        { geometry := (split_line_at_point street.geomLen pointVeh).2,
          length := (split_line_at_point street.geomLen pointVeh).2.len,
          is_veh_edge := true })] }

/-- `generate_vehs(graph_streets, street_idxs, points_vehs)`, restricted to
the local graphs it constructs (`graphs_vehs`). -/
def generate_vehs (streets : List StreetEdge) (street_idxs : List ℕ)
    (points_vehs : List ℚ) : List VehGraph :=
  (street_idxs.zip points_vehs).enum.map
    (fun p => genVehGraph (streets.getD p.2.1 default) p.1 p.2.2)

/-- C3 counterexample: on a self-loop street (equal endpoints, as OSM loops
produce) the local graph has only TWO nodes, not three: the duplicate
endpoint is added once. -/
theorem claim_C3_counterexample :
    (generate_vehs [⟨7, 7, 10⟩] [0] [4]).length = 1 ∧
    ((generate_vehs [⟨7, 7, 10⟩] [0] [4]).getD 0 default).nodes =
      [VehNode.veh 0, VehNode.street 7] ∧
    ((generate_vehs [⟨7, 7, 10⟩] [0] [4]).getD 0 default).nodes.length = 2 := by
  exact ⟨rfl, rfl, rfl⟩

/-- C3 (amended): every local graph produced by `generate_vehs` has exactly
two edges, both tagged as vehicle edges, carrying the two sub-segments of the
hosting street's geometry whose lengths sum exactly to the street's original
geometry length; it has exactly three nodes whenever the hosting street's two
endpoints are distinct (a self-loop street yields two nodes). -/
theorem claim_C3_generate_vehs (streets : List StreetEdge) (street_idxs : List ℕ)
    (points_vehs : List ℚ) (it : ℕ)
    (hit : it < (street_idxs.zip points_vehs).length) :
    ∃ st : StreetEdge,
      st = streets.getD ((street_idxs.zip points_vehs).get ⟨it, hit⟩).1 default ∧
      ∃ g : VehGraph, (generate_vehs streets street_idxs points_vehs).get? it = some g ∧
        g.edges.length = 2 ∧
        (∀ e ∈ g.edges, e.2.2.is_veh_edge = true ∧ e.2.2.length = e.2.2.geometry.len ∧
          e.1 = VehNode.veh it) ∧
        (g.edges.map (fun e => e.2.2.length)).sum = st.geomLen ∧
        (st.nodeA ≠ st.nodeB → g.nodes.length = 3) ∧
        (st.nodeA = st.nodeB → g.nodes.length = 2) := by
  set zp := street_idxs.zip points_vehs with hzp
  set st := streets.getD ((zp.get ⟨it, hit⟩)).1 default with hst
  set s := (zp.get ⟨it, hit⟩).2 with hs
  refine ⟨st, rfl, genVehGraph st it s, ?_, rfl, ?_, ?_, ?_, ?_⟩
  · rw [generate_vehs, ← hzp]
    have hlen : zp.enum.length = zp.length := List.enum_length
    rw [List.get?_map, @List.get?_eq_get _ zp.enum it (hlen ▸ hit)]
    have he : zp.enum.get ⟨it, hlen ▸ hit⟩ = (it, zp.get ⟨it, hit⟩) := by
      apply List.get_enum
    rw [he]
    rfl
  · intro e he
    simp only [genVehGraph] at he
    rw [List.mem_cons, List.mem_singleton] at he
    rcases he with h | h
    · rw [h]
      exact ⟨rfl, rfl, rfl⟩
    · rw [h]
      exact ⟨rfl, rfl, rfl⟩
  · show SubGeom.len ⟨0, s⟩ + (SubGeom.len ⟨s, st.geomLen⟩ + 0) = st.geomLen
    rw [SubGeom.len, SubGeom.len]
    ring
  · intro hne
    show (addNode (addNode (addNode [] (VehNode.veh it)) (VehNode.street st.nodeA))
      (VehNode.street st.nodeB)).length = 3
    have ha : addNode [] (VehNode.veh it) = [VehNode.veh it] := rfl
    have h12 : addNode (addNode [] (VehNode.veh it)) (VehNode.street st.nodeA) =
        [VehNode.veh it, VehNode.street st.nodeA] := by
      rw [ha, addNode, if_neg (by simp)]
      rfl
    rw [h12, addNode, if_neg ?_]
    · rfl
    · intro hmem
      rcases List.mem_cons.mp hmem with h | h
      · exact VehNode.noConfusion h
      · rw [List.mem_singleton, VehNode.street.injEq] at h
        exact hne h.symm
  · intro heq
    show (addNode (addNode (addNode [] (VehNode.veh it)) (VehNode.street st.nodeA))
      (VehNode.street st.nodeB)).length = 2
    have ha : addNode [] (VehNode.veh it) = [VehNode.veh it] := rfl
    have h12 : addNode (addNode [] (VehNode.veh it)) (VehNode.street st.nodeA) =
        [VehNode.veh it, VehNode.street st.nodeA] := by
      rw [ha, addNode, if_neg (by simp)]
      rfl
    rw [h12, addNode, if_pos ?_]
    · rfl
    · rw [heq]
      exact List.mem_cons_of_mem _ (List.mem_singleton.mpr rfl)

/-- C3 witness: the amended statement on a concrete two-street network,
one ordinary street and the vehicle at position 3 of a length-8 geometry. -/
theorem claim_C3_generate_vehs_witness :
    0 < (([1] : List ℕ).zip ([3] : List ℚ)).length ∧
    ∃ st : StreetEdge,
      st = ([⟨5, 6, 20⟩, ⟨8, 9, 8⟩] : List StreetEdge).getD
        ((([1] : List ℕ).zip ([3] : List ℚ)).get ⟨0, by decide⟩).1 default ∧
      ∃ g : VehGraph,
        (generate_vehs [⟨5, 6, 20⟩, ⟨8, 9, 8⟩] [1] [3]).get? 0 = some g ∧
        g.edges.length = 2 ∧
        (∀ e ∈ g.edges, e.2.2.is_veh_edge = true ∧ e.2.2.length = e.2.2.geometry.len ∧
          e.1 = VehNode.veh 0) ∧
        (g.edges.map (fun e => e.2.2.length)).sum = st.geomLen ∧
        (st.nodeA ≠ st.nodeB → g.nodes.length = 3) ∧
        (st.nodeA = st.nodeB → g.nodes.length = 2) :=
  ⟨by decide, claim_C3_generate_vehs [⟨5, 6, 20⟩, ⟨8, 9, 8⟩] [1] [3] 0 (by decide)⟩

/-! ## Weighted random street choice: `choose_random_streets` (src/vehicles.py)

`np.random.choice(count_streets, size=count, p=probs)` is external (numpy).
Modelled from the numpy contract: each of the `count` entries is drawn
independently by inverse-CDF sampling of its own uniform value in `[0, 1)`:
the chosen index is the one whose cumulative-probability interval contains
the uniform value. -/

/-- Inverse-CDF sampling: walk the probability list, consuming the uniform
value, and return the first index whose cumulative interval contains it. -/
def pickIdx : List ℚ → ℚ → ℕ
  | [], _ => 0
  | p :: ps, u => if u < p then 0 else pickIdx ps (u - p) + 1

/-- `choose_random_streets(lengths, count)`: `probs = lengths / sum(lengths)`
and `count` independent draws, the draw `t` using the uniform sample
`us.getD t 0`. -/
def choose_random_streets (lengths : List ℚ) (count : ℕ) (us : List ℚ) : List ℕ :=
  (List.range count).map
    (fun t => pickIdx (lengths.map (fun l => l / lengths.sum)) (us.getD t 0))

theorem sum_map_div (ls : List ℚ) (c : ℚ) :
    (ls.map (fun l => l / c)).sum = ls.sum / c := by
  induction ls with
  | nil => simp
  | cons l ls ih =>
    rw [List.map_cons, List.sum_cons, List.sum_cons, ih, add_div]

/-- The sampled index is within range when the uniform value is within the
total mass. -/
theorem pickIdx_lt_length (ls : List ℚ) (u : ℚ) (h0 : 0 ≤ u) (hu : u < ls.sum) :
    pickIdx ls u < ls.length := by
  revert h0 hu
  induction ls generalizing u with
  | nil =>
    intro h0 hu
    rw [List.sum_nil] at hu
    exact absurd (lt_of_le_of_lt h0 hu) (lt_irrefl 0)
  | cons p ps ih =>
    intro h0 hu
    rw [pickIdx]
    by_cases hlt : u < p
    · rw [if_pos hlt]
      exact Nat.succ_pos _
    · rw [if_neg hlt]
      rw [List.length_cons, Nat.add_lt_add_iff_right]
      refine ih (u - p) (by linarith [not_lt.mp hlt]) ?_
      rw [List.sum_cons] at hu
      linarith

/-- Interval characterization of inverse-CDF sampling: index `i` is chosen
exactly when the uniform value falls in `[cum i, cum (i+1))`, the cumulative
interval of street `i`. -/
theorem pickIdx_eq_iff (ls : List ℚ) (u : ℚ) (i : ℕ)
    (hnn : ∀ l ∈ ls, 0 ≤ l) (h0 : 0 ≤ u) (hu : u < ls.sum) :
    pickIdx ls u = i ↔ ((ls.take i).sum ≤ u ∧ u < (ls.take (i + 1)).sum) := by
  revert hnn h0 hu
  induction ls generalizing u i with
  | nil =>
    intro hnn h0 hu
    rw [List.sum_nil] at hu
    exact absurd (lt_of_le_of_lt h0 hu) (lt_irrefl 0)
  | cons p ps ih =>
    intro hnn h0 hu
    have hnn2 : ∀ l ∈ ps, 0 ≤ l := fun l hl => hnn l (List.mem_cons_of_mem p hl)
    cases i with
    | zero =>
      rw [pickIdx]
      simp only [List.take_zero, List.sum_nil, List.take_succ_cons, List.take_zero,
        List.sum_cons, List.sum_nil, add_zero]
      by_cases hlt : u < p
      · rw [if_pos hlt]
        exact ⟨fun _ => ⟨h0, hlt⟩, fun _ => rfl⟩
      · rw [if_neg hlt]
        constructor
        · intro h
          exact absurd h (Nat.succ_ne_zero _)
        · intro h
          exact absurd h.2 hlt
    | succ j =>
      rw [pickIdx]
      have hsumtake : 0 ≤ (ps.take j).sum :=
        List.sum_nonneg (fun x hx =>
          hnn x (List.mem_cons_of_mem p (List.take_subset j ps hx)))
      simp only [List.take_succ_cons, List.sum_cons]
      by_cases hlt : u < p
      · rw [if_pos hlt]
        constructor
        · intro h
          exact absurd h.symm (Nat.succ_ne_zero _)
        · intro h
          exact absurd hlt (not_lt.mpr (by linarith [h.1, hsumtake]))
      · rw [if_neg hlt]
        have hp : p ≤ u := not_lt.mp hlt
        have h0p : 0 ≤ u - p := by linarith
        have hup : u - p < ps.sum := by
          rw [List.sum_cons] at hu
          linarith
        rw [Nat.add_right_cancel_iff, ih (u - p) j hnn2 h0p hup]
        constructor
        · intro ⟨h1, h2⟩
          exact ⟨by linarith, by linarith⟩
        · intro ⟨h1, h2⟩
          exact ⟨by linarith, by linarith⟩

theorem getD_mem_of_lt {α : Type} : ∀ (l : List α) (t : ℕ) (d : α),
    t < l.length → l.getD t d ∈ l
  | [], t, _, h => absurd h (Nat.not_lt_zero t)
  | a :: l, 0, _, _ => List.mem_cons_self a l
  | a :: l, t + 1, d, h =>
    List.mem_cons_of_mem a (getD_mem_of_lt l t d (Nat.succ_lt_succ_iff.mp h))

/-- C4: `choose_random_streets(lengths, k)` returns exactly `k` street
indices, each in `[0, num_streets)`, each draw depending only on its own
uniform sample (independence with replacement); a draw picks street `i`
exactly when its uniform sample falls in the cumulative interval of street
`i`, whose width is `length_i / Σ length` — in particular a zero-length
street is never chosen. -/
theorem claim_C4_choose_random_streets (lengths : List ℚ) (count : ℕ) (us : List ℚ)
    (hnn : ∀ l ∈ lengths, 0 ≤ l) (hpos : 0 < lengths.sum)
    (hcount : us.length = count)
    (huni : ∀ u ∈ us, 0 ≤ u ∧ u < 1) :
    (choose_random_streets lengths count us).length = count ∧
    (∀ x ∈ choose_random_streets lengths count us, x < lengths.length) ∧
    (∀ i, (hi : i < lengths.length) → lengths.get ⟨i, hi⟩ = 0 →
      i ∉ choose_random_streets lengths count us) ∧
    (∀ t, t < count →
      (choose_random_streets lengths count us).get? t =
        some (pickIdx (lengths.map (fun l => l / lengths.sum)) (us.getD t 0))) ∧
    (∀ i u, 0 ≤ u → u < 1 →
      (pickIdx (lengths.map (fun l => l / lengths.sum)) u = i ↔
        ((lengths.take i).sum / lengths.sum ≤ u ∧
          u < (lengths.take (i + 1)).sum / lengths.sum))) ∧
    (∀ i, (hi : i < lengths.length) →
      (lengths.take (i + 1)).sum / lengths.sum - (lengths.take i).sum / lengths.sum =
        lengths.get ⟨i, hi⟩ / lengths.sum) := by
  have hTne : lengths.sum ≠ 0 := ne_of_gt hpos
  have hprobs_sum : (lengths.map (fun l => l / lengths.sum)).sum = 1 := by
    rw [sum_map_div]
    exact div_self hTne
  have hprobs_nn : ∀ p ∈ lengths.map (fun l => l / lengths.sum), 0 ≤ p := by
    intro p hp
    rw [List.mem_map] at hp
    obtain ⟨l, hl, rfl⟩ := hp
    exact div_nonneg (hnn l hl) hpos.le
  have hprobs_len : (lengths.map (fun l => l / lengths.sum)).length = lengths.length :=
    List.length_map lengths _
  have htake : ∀ i, ((lengths.map (fun l => l / lengths.sum)).take i).sum =
      (lengths.take i).sum / lengths.sum := by
    intro i
    rw [← List.map_take, sum_map_div]
  have hmem_pick : ∀ x ∈ choose_random_streets lengths count us,
      ∃ t, t < count ∧
        x = pickIdx (lengths.map (fun l => l / lengths.sum)) (us.getD t 0) := by
    intro x hx
    rw [choose_random_streets, List.mem_map] at hx
    obtain ⟨t, ht, rfl⟩ := hx
    exact ⟨t, List.mem_range.mp ht, rfl⟩
  have hu_bounds : ∀ t, t < count → 0 ≤ us.getD t 0 ∧ us.getD t 0 < 1 := by
    intro t ht
    exact huni _ (getD_mem_of_lt us t 0 (hcount ▸ ht))
  refine ⟨?_, ?_, ?_, ?_, ?_, ?_⟩
  · rw [choose_random_streets, List.length_map, List.length_range]
  · intro x hx
    obtain ⟨t, ht, rfl⟩ := hmem_pick x hx
    obtain ⟨h0, h1⟩ := hu_bounds t ht
    have := pickIdx_lt_length (lengths.map (fun l => l / lengths.sum)) (us.getD t 0)
      h0 (hprobs_sum ▸ h1)
    rwa [hprobs_len] at this
  · intro i hi hzero hmem
    obtain ⟨t, ht, hpick⟩ := hmem_pick i hmem
    obtain ⟨h0, h1⟩ := hu_bounds t ht
    have hiff := pickIdx_eq_iff (lengths.map (fun l => l / lengths.sum)) (us.getD t 0) i
      hprobs_nn h0 (hprobs_sum ▸ h1)
    obtain ⟨hle, hlt⟩ := hiff.mp hpick.symm
    have hip : i < (lengths.map (fun l => l / lengths.sum)).length := hprobs_len ▸ hi
    rw [List.sum_take_succ _ i hip] at hlt
    have hgi : (lengths.map (fun l => l / lengths.sum))[i] = 0 := by
      rw [List.getElem_map]
      have e : lengths.get ⟨i, hi⟩ = lengths[i] := rfl
      rw [← e, hzero, zero_div]
    rw [hgi, add_zero] at hlt
    exact absurd hle (not_le.mpr hlt)
  · intro t ht
    rw [choose_random_streets, List.get?_map, List.get?_range ht]
    rfl
  · intro i u h0 h1
    rw [pickIdx_eq_iff (lengths.map (fun l => l / lengths.sum)) u i hprobs_nn h0
      (hprobs_sum ▸ h1), htake, htake]
  · intro i hi
    rw [List.sum_take_succ lengths i hi]
    have e : lengths.get ⟨i, hi⟩ = lengths[i] := rfl
    rw [e]
    ring

/-- C4 witness: three streets of lengths 1, 0, 3: two draws with uniform
samples 0.5 and 0.1 pick streets 2 and 0; the zero-length street 1 is never
chosen. -/
theorem claim_C4_choose_random_streets_witness :
    ((∀ l ∈ ([1, 0, 3] : List ℚ), 0 ≤ l) ∧ 0 < ([1, 0, 3] : List ℚ).sum ∧
      ([1/2, 1/10] : List ℚ).length = 2 ∧
      (∀ u ∈ ([1/2, 1/10] : List ℚ), 0 ≤ u ∧ u < 1)) ∧
    (choose_random_streets [1, 0, 3] 2 [1/2, 1/10]).length = 2 ∧
    (∀ x ∈ choose_random_streets [1, 0, 3] 2 [1/2, 1/10],
      x < ([1, 0, 3] : List ℚ).length) ∧
    1 ∉ choose_random_streets [1, 0, 3] 2 [1/2, 1/10] ∧
    choose_random_streets [1, 0, 3] 2 [1/2, 1/10] = [2, 0] := by
  have h := claim_C4_choose_random_streets [1, 0, 3] 2 [1/2, 1/10]
    (by norm_num) (by norm_num) rfl
    (by
      intro u hu
      rcases List.mem_cons.mp hu with rfl | hu
      · norm_num
      · rcases List.mem_singleton.mp hu with rfl
        norm_num)
  refine ⟨⟨by norm_num, by norm_num, rfl, ?_⟩, h.1, h.2.1, ?_, ?_⟩
  · intro u hu
    rcases List.mem_cons.mp hu with rfl | hu
    · norm_num
    · rcases List.mem_singleton.mp hu with rfl
      norm_num
  · exact h.2.2.1 1 (by norm_num) (by norm_num)
  · norm_num [choose_random_streets, List.range_succ, pickIdx]

/-! ## All-pairs mode: `main_sim_multi` (src/main_sim_osm_pathloss.py)

The `n·(n-1)/2` unordered pairs are indexed the way `scipy.spatial.distance`
lays out a condensed distance matrix: pair `(i, j)` with `i < j` sits at
`n·i + j - (i+2)(i+1)/2`.  The external NLOS classifier
(`prop.veh_cons_are_nlos_all`, in the absent `propagation.py`) and the
pairwise distances (`dist.pdist`) become abstract functions on condensed
indices. -/

/-- `count_cond = count_veh * (count_veh - 1) // 2`. -/
def pairCount (n : ℕ) : ℕ := n * (n - 1) / 2

/-- scipy condensed index of the unordered pair `(i, j)`, `i < j < n`. -/
def condIdx (n i j : ℕ) : ℕ := n * i + j - (i + 2) * (i + 1) / 2

/-- `idxs_olos_los = np.where(np.invert(is_nlos))[0]`. -/
def idxsOlosLos (m : ℕ) (isNlos : ℕ → Bool) : List ℕ :=
  (List.range m).filter (fun k => !isNlos k)

/-- `idxs_nlos = np.where(is_nlos)[0]`. -/
def idxsNlos (m : ℕ) (isNlos : ℕ → Bool) : List ℕ :=
  (List.range m).filter (fun k => isNlos k)

/-- `idxs_in_range = np.append(idxs_olos_los[distances[idxs_olos_los] <
max_dist_olos_los], idxs_nlos[distances[idxs_nlos] < max_dist_nlos])`. -/
def idxsInRange (m : ℕ) (isNlos : ℕ → Bool) (d : ℕ → ℚ) (tOlosLos tNlos : ℚ) :
    List ℕ :=
  (idxsOlosLos m isNlos).filter (fun k => d k < tOlosLos) ++
    (idxsNlos m isNlos).filter (fun k => d k < tNlos)

/-- `is_in_range = np.in1d(np.arange(count_cond), idxs_in_range)`. -/
def isInRangeB (m : ℕ) (isNlos : ℕ → Bool) (d : ℕ → ℚ) (tOlosLos tNlos : ℚ)
    (k : ℕ) : Bool :=
  (idxsInRange m isNlos d tOlosLos tNlos).contains k

/-- The in-range marking matches the claimed per-pair rule. -/
theorem isInRangeB_iff (m : ℕ) (isNlos : ℕ → Bool) (d : ℕ → ℚ)
    (tOlosLos tNlos : ℚ) (k : ℕ) (hk : k < m) :
    isInRangeB m isNlos d tOlosLos tNlos k = true ↔
      (if isNlos k then d k < tNlos else d k < tOlosLos) := by
  have hmem : isInRangeB m isNlos d tOlosLos tNlos k = true ↔
      k ∈ idxsInRange m isNlos d tOlosLos tNlos := by
    rw [isInRangeB]
    simp
  rw [hmem, idxsInRange, List.mem_append, idxsOlosLos, idxsNlos,
    List.mem_filter, List.mem_filter, List.mem_filter, List.mem_filter]
  by_cases hN : isNlos k = true
  · rw [if_pos hN]
    simp [hN, hk]
  · rw [if_neg hN]
    rw [Bool.not_eq_true] at hN
    simp [hN, hk]

/-- The product of two consecutive naturals halves exactly. -/
theorem exists_half_mul (x y : ℕ) (h : x = y + 1) :
    ∃ a, x * y = 2 * a ∧ x * y / 2 = a := by
  subst h
  rcases Nat.even_or_odd y with ⟨e, he⟩ | ⟨e, he⟩
  · refine ⟨(y + 1) * e, ?_, ?_⟩
    · subst he
      ring
    · subst he
      rw [show (e + e + 1) * (e + e) = 2 * ((e + e + 1) * e) from by ring]
      exact Nat.mul_div_cancel_left _ (by norm_num)
  · refine ⟨(e + 1) * y, ?_, ?_⟩
    · subst he
      ring
    · subst he
      rw [show (2 * e + 1 + 1) * (2 * e + 1) = 2 * ((e + 1) * (2 * e + 1)) from by ring]
      exact Nat.mul_div_cancel_left _ (by norm_num)

/-- The condensed index of a valid pair is within the condensed array. -/
theorem condIdx_lt (n i j : ℕ) (hij : i < j) (hjn : j < n) :
    condIdx n i j < pairCount n := by
  have h1 : 1 ≤ n := Nat.one_le_of_lt (Nat.lt_of_le_of_lt (Nat.zero_le i)
    (lt_trans hij hjn))
  obtain ⟨a, ha, hka⟩ := exists_half_mul (i + 2) (i + 1) rfl
  obtain ⟨b, hb, hkb⟩ := exists_half_mul n (n - 1) (by omega)
  have hA2 : 2 * a ≤ 2 * (n * i + j) := by
    rw [← ha]
    zify
    nlinarith [mul_nonneg (show (0 : ℤ) ≤ (n : ℤ) - i - 2 from by omega)
      (show (0 : ℤ) ≤ (i : ℤ) from by positivity),
      show (i : ℤ) < j from by exact_mod_cast hij]
  have key : 2 * (n * i + j) < n * (n - 1) + (i + 2) * (i + 1) := by
    zify [h1]
    nlinarith [sq_nonneg ((n : ℤ) - i - 2),
      show (2 : ℤ) ≤ (n : ℤ) - i from by omega,
      show (j : ℤ) < n from by exact_mod_cast hjn,
      show (i : ℤ) < j from by exact_mod_cast hij]
  have hkb2 : pairCount n = b := hkb
  rw [condIdx, hka, hkb2]
  omega

/-! ## Connected components of the in-range graph

`nx.from_numpy_matrix` / `nx.connected_component_subgraphs` /
`max(clusters, key=len)`: the graph on the `n` vehicles is given by a
boolean adjacency; components are computed as the stable set of a
breadth-first closure, and proved to coincide with reflexive-transitive
reachability. -/

/-- One BFS round: everything reached so far plus all out-neighbours. -/
def stepSet (n : ℕ) (adj : ℕ → ℕ → Bool) (S : Finset ℕ) : Finset ℕ :=
  S ∪ S.biUnion (fun k => (Finset.range n).filter (fun j => adj k j))

/-- Iterated BFS rounds from a start vertex. -/
def reachSet (n : ℕ) (adj : ℕ → ℕ → Bool) (i : ℕ) : ℕ → Finset ℕ
  | 0 => {i}
  | f + 1 => stepSet n adj (reachSet n adj i f)

/-- The connected component of vertex `i`: `n` BFS rounds always reach the
fixpoint on an `n`-vertex graph. -/
def compOf (n : ℕ) (adj : ℕ → ℕ → Bool) (i : ℕ) : Finset ℕ :=
  reachSet n adj i n

theorem mem_stepSet {n : ℕ} {adj : ℕ → ℕ → Bool} {S : Finset ℕ} {j : ℕ} :
    j ∈ stepSet n adj S ↔ j ∈ S ∨ ∃ k ∈ S, j < n ∧ adj k j = true := by
  rw [stepSet, Finset.mem_union, Finset.mem_biUnion]
  constructor
  · intro h
    rcases h with h | ⟨k, hk, hj⟩
    · exact Or.inl h
    · rw [Finset.mem_filter, Finset.mem_range] at hj
      exact Or.inr ⟨k, hk, hj.1, hj.2⟩
  · intro h
    rcases h with h | ⟨k, hk, hjn, hadj⟩
    · exact Or.inl h
    · exact Or.inr ⟨k, hk, Finset.mem_filter.mpr ⟨Finset.mem_range.mpr hjn, hadj⟩⟩

theorem reachSet_subset_step (n : ℕ) (adj : ℕ → ℕ → Bool) (i f : ℕ) :
    reachSet n adj i f ⊆ reachSet n adj i (f + 1) := by
  intro j hj
  rw [reachSet]
  exact mem_stepSet.mpr (Or.inl hj)

theorem reachSet_mono (n : ℕ) (adj : ℕ → ℕ → Bool) (i : ℕ) {f g : ℕ}
    (h : f ≤ g) : reachSet n adj i f ⊆ reachSet n adj i g := by
  obtain ⟨e, rfl⟩ := Nat.exists_eq_add_of_le h
  clear h
  induction e with
  | zero => exact subset_rfl
  | succ e ih =>
    exact ih.trans (reachSet_subset_step n adj i (f + e))

/-- Once one round adds nothing, no later round ever will. -/
theorem reachSet_stab (n : ℕ) (adj : ℕ → ℕ → Bool) (i f : ℕ)
    (h : reachSet n adj i (f + 1) = reachSet n adj i f) :
    ∀ e, reachSet n adj i (f + e) = reachSet n adj i f := by
  intro e
  induction e with
  | zero => rfl
  | succ e ih =>
    have : reachSet n adj i (f + e + 1) = stepSet n adj (reachSet n adj i (f + e)) := rfl
    rw [show f + (e + 1) = f + e + 1 from rfl, this, ih]
    exact h

/-- Either a round is already stable, or the reached set has grown `f + 1`
elements deep. -/
theorem reachSet_growth (n : ℕ) (adj : ℕ → ℕ → Bool) (i : ℕ) :
    ∀ f, reachSet n adj i (f + 1) = reachSet n adj i f ∨
      f + 1 ≤ (reachSet n adj i f).card := by
  intro f
  induction f with
  | zero =>
    right
    rw [reachSet]
    simp
  | succ f ih =>
    by_cases hst : reachSet n adj i (f + 1) = reachSet n adj i f
    · left
      have h2 := reachSet_stab n adj i f hst 2
      rw [show f + 1 + 1 = f + 2 from rfl, h2, hst]
    · right
      rcases ih with he | hc
      · exact absurd he hst
      · have hss : reachSet n adj i f ⊂ reachSet n adj i (f + 1) :=
          (Finset.ssubset_iff_of_subset (reachSet_subset_step n adj i f)).mpr
            (by
              by_contra hno
              push_neg at hno
              exact hst (Finset.Subset.antisymm
                (fun x hx => by
                  by_contra hxx
                  exact hxx (hno x hx)) (reachSet_subset_step n adj i f)))
        exact Nat.succ_le_of_lt (lt_of_le_of_lt hc (Finset.card_lt_card hss))

theorem reachSet_subset_range (n : ℕ) (adj : ℕ → ℕ → Bool) (i : ℕ) (hi : i < n) :
    ∀ f, reachSet n adj i f ⊆ Finset.range n := by
  intro f
  induction f with
  | zero =>
    intro j hj
    rw [reachSet, Finset.mem_singleton] at hj
    exact Finset.mem_range.mpr (hj ▸ hi)
  | succ f ih =>
    intro j hj
    rcases mem_stepSet.mp hj with h | ⟨_, _, hjn, _⟩
    · exact ih h
    · exact Finset.mem_range.mpr hjn

/-- After `n` rounds the reached set is a fixpoint. -/
theorem compOf_fixpoint (n : ℕ) (adj : ℕ → ℕ → Bool) (i : ℕ) (hi : i < n) :
    stepSet n adj (compOf n adj i) = compOf n adj i := by
  have hgrow := reachSet_growth n adj i n
  rcases hgrow with hst | hc
  · exact reachSet_stab n adj i n hst 1
  · have hle : (reachSet n adj i n).card ≤ n := by
      have := Finset.card_le_card (reachSet_subset_range n adj i hi n)
      rwa [Finset.card_range] at this
    omega

/-- Adjacency as a proposition, for reachability statements. -/
def AdjProp (adj : ℕ → ℕ → Bool) (a b : ℕ) : Prop := adj a b = true

/-- Soundness: everything in a BFS round is genuinely reachable. -/
theorem reachSet_sound (n : ℕ) (adj : ℕ → ℕ → Bool) (i : ℕ) :
    ∀ f, ∀ j ∈ reachSet n adj i f, Relation.ReflTransGen (AdjProp adj) i j := by
  intro f
  induction f with
  | zero =>
    intro j hj
    rw [reachSet, Finset.mem_singleton] at hj
    exact hj ▸ Relation.ReflTransGen.refl
  | succ f ih =>
    intro j hj
    rcases mem_stepSet.mp hj with h | ⟨k, hk, _, hadj⟩
    · exact ih j h
    · exact Relation.ReflTransGen.tail (ih k hk) hadj

/-- Completeness: everything reachable is in the component, provided the
adjacency never leaves the vertex range. -/
theorem reachSet_complete (n : ℕ) (adj : ℕ → ℕ → Bool) (i : ℕ) (hi : i < n)
    (hadj : ∀ a b, adj a b = true → b < n) (j : ℕ)
    (hr : Relation.ReflTransGen (AdjProp adj) i j) : j ∈ compOf n adj i := by
  induction hr with
  | refl =>
    have : i ∈ reachSet n adj i 0 := by
      rw [reachSet]
      exact Finset.mem_singleton_self i
    exact reachSet_mono n adj i (Nat.zero_le n) this
  | tail hab hbc ih =>
    rw [← compOf_fixpoint n adj i hi]
    exact mem_stepSet.mpr (Or.inr ⟨_, ih, hadj _ _ hbc, hbc⟩)

/-- The computed component is exactly the reachability class. -/
theorem mem_compOf_iff (n : ℕ) (adj : ℕ → ℕ → Bool) (i : ℕ) (hi : i < n)
    (hadj : ∀ a b, adj a b = true → b < n) (j : ℕ) :
    j ∈ compOf n adj i ↔ Relation.ReflTransGen (AdjProp adj) i j :=
  ⟨reachSet_sound n adj i n j, reachSet_complete n adj i hi hadj j⟩

/-- `cluster_max.order()` target: the largest component cardinality,
as `max(clusters, key=len)` maximizes. -/
def maxCompSize (n : ℕ) (adj : ℕ → ℕ → Bool) : ℕ :=
  Finset.sup (Finset.range n) (fun i => (compOf n adj i).card)

/-- The representative whose component `max(clusters, key=len)` returns:
networkx yields components in order of smallest representative, and `max`
keeps the first one attaining the maximal size. -/
def idxMaxComp (n : ℕ) (adj : ℕ → ℕ → Bool) : ℕ :=
  ((List.range n).find? (fun i => (compOf n adj i).card == maxCompSize n adj)).getD 0

/-- `cluster_max.nodes()`. -/
def clusterMax (n : ℕ) (adj : ℕ → ℕ → Bool) : Finset ℕ :=
  compOf n adj (idxMaxComp n adj)

/-- `net_connectivity = cluster_max.order() / count_veh`. -/
def net_connectivity (n : ℕ) (adj : ℕ → ℕ → Bool) : ℚ :=
  (clusterMax n adj).card / n

/-- `not_cluster_max_nodes = np.arange(count_veh)[~np.in1d(...)]`. -/
def notClusterMax (n : ℕ) (adj : ℕ → ℕ → Bool) : List ℕ :=
  (List.range n).filter (fun v => !(decide (v ∈ clusterMax n adj)))

/-- The adjacency of the in-range graph
(`dist.squareform(is_in_range)` fed to `nx.from_numpy_matrix`):
vertices `i ≠ j` below `n`, marked via the condensed index of the pair. -/
def multiAdj (n : ℕ) (isNlos : ℕ → Bool) (d : ℕ → ℚ) (tOlosLos tNlos : ℚ)
    (i j : ℕ) : Bool :=
  decide (i < n) && decide (j < n) && decide (i ≠ j) &&
    isInRangeB (pairCount n) isNlos d tOlosLos tNlos (condIdx n (min i j) (max i j))

/-- `main_sim_multi(network, max_dist_olos_los, max_dist_nlos)`: the returned
network connectivity.  The external classifier result `is_nlos` and the
condensed pairwise distances are abstract inputs. -/
def main_sim_multi (n : ℕ) (isNlos : ℕ → Bool) (d : ℕ → ℚ)
    (tOlosLos tNlos : ℚ) : ℚ :=
  net_connectivity n (multiAdj n isNlos d tOlosLos tNlos)

theorem multiAdj_target_lt (n : ℕ) (isNlos : ℕ → Bool) (d : ℕ → ℚ)
    (tOlosLos tNlos : ℚ) (a b : ℕ)
    (h : multiAdj n isNlos d tOlosLos tNlos a b = true) : b < n := by
  rw [multiAdj, Bool.and_assoc, Bool.and_assoc, Bool.and_eq_true] at h
  rcases h with ⟨_, h⟩
  rw [Bool.and_eq_true] at h
  exact of_decide_eq_true h.1

/-- The chosen representative exists, indexes the maximal component and is
the value of `idxMaxComp`. -/
theorem idxMaxComp_spec (n : ℕ) (adj : ℕ → ℕ → Bool) (hn : 1 ≤ n) :
    idxMaxComp n adj < n ∧
    (compOf n adj (idxMaxComp n adj)).card = maxCompSize n adj := by
  obtain ⟨b, hbmem, hbsup⟩ := Finset.exists_mem_eq_sup (Finset.range n)
    (Finset.nonempty_range_iff.mpr (by omega)) (fun i => (compOf n adj i).card)
  have hex : ∃ x, x ∈ List.range n ∧
      ((compOf n adj x).card == maxCompSize n adj) = true :=
    ⟨b, List.mem_range.mpr (Finset.mem_range.mp hbmem),
      beq_iff_eq.mpr hbsup.symm⟩
  obtain ⟨i0, hfind⟩ : ∃ i0,
      (List.range n).find? (fun i => (compOf n adj i).card == maxCompSize n adj) =
        some i0 := by
    rcases hex with ⟨x, hx, hpx⟩
    exact Option.isSome_iff_exists.mp (List.find?_isSome.mpr ⟨x, hx, hpx⟩)
  have hval : idxMaxComp n adj = i0 := by
    rw [idxMaxComp, hfind]
    rfl
  constructor
  · rw [hval]
    exact List.mem_range.mp (List.mem_of_find?_eq_some hfind)
  · have hp := List.find?_some hfind
    rw [beq_iff_eq] at hp
    rw [hval]
    exact hp

/-- C2: in all-pairs mode, an unordered pair is in range iff (NLOS and
distance < max_dist_nlos) or (OLOS/LOS and distance < max_dist_olos_los); the
returned ratio equals |largest connected component| / n and lies in [0, 1];
`cluster_max` is a connected component of the in-range graph of maximal size;
and `not_cluster_max` holds exactly the vehicle indices outside it. -/
theorem claim_C2_main_sim_multi (n : ℕ) (isNlos : ℕ → Bool) (d : ℕ → ℚ)
    (tOlosLos tNlos : ℚ) (hn : 1 ≤ n) :
    (∀ i j, i < j → j < n →
      (multiAdj n isNlos d tOlosLos tNlos i j = true ↔
        (if isNlos (condIdx n i j) then d (condIdx n i j) < tNlos
          else d (condIdx n i j) < tOlosLos))) ∧
    main_sim_multi n isNlos d tOlosLos tNlos =
      (clusterMax n (multiAdj n isNlos d tOlosLos tNlos)).card / n ∧
    0 ≤ main_sim_multi n isNlos d tOlosLos tNlos ∧
    main_sim_multi n isNlos d tOlosLos tNlos ≤ 1 ∧
    (∀ j, j ∈ clusterMax n (multiAdj n isNlos d tOlosLos tNlos) ↔
      Relation.ReflTransGen (AdjProp (multiAdj n isNlos d tOlosLos tNlos))
        (idxMaxComp n (multiAdj n isNlos d tOlosLos tNlos)) j) ∧
    (∀ i, i < n →
      (compOf n (multiAdj n isNlos d tOlosLos tNlos) i).card ≤
        (clusterMax n (multiAdj n isNlos d tOlosLos tNlos)).card) ∧
    (∀ v, v ∈ notClusterMax n (multiAdj n isNlos d tOlosLos tNlos) ↔
      (v < n ∧ v ∉ clusterMax n (multiAdj n isNlos d tOlosLos tNlos))) := by
  obtain ⟨hi0n, hi0max⟩ := idxMaxComp_spec n (multiAdj n isNlos d tOlosLos tNlos) hn
  have hadj := multiAdj_target_lt n isNlos d tOlosLos tNlos
  refine ⟨?_, rfl, ?_, ?_, ?_, ?_, ?_⟩
  · intro i j hij hjn
    have hin : i < n := lt_trans hij hjn
    have hk := condIdx_lt n i j hij hjn
    rw [multiAdj, min_eq_left hij.le, max_eq_right hij.le]
    rw [decide_eq_true hin, decide_eq_true hjn, decide_eq_true (Nat.ne_of_lt hij)]
    rw [Bool.true_and, Bool.true_and, Bool.true_and]
    exact isInRangeB_iff (pairCount n) isNlos d tOlosLos tNlos (condIdx n i j) hk
  · exact div_nonneg (Nat.cast_nonneg _) (Nat.cast_nonneg _)
  · rw [main_sim_multi, net_connectivity]
    have hsub : clusterMax n (multiAdj n isNlos d tOlosLos tNlos) ⊆ Finset.range n :=
      reachSet_subset_range n _ _ hi0n n
    have hcard : (clusterMax n (multiAdj n isNlos d tOlosLos tNlos)).card ≤ n := by
      have := Finset.card_le_card hsub
      rwa [Finset.card_range] at this
    rw [div_le_one (by exact_mod_cast Nat.lt_of_lt_of_le Nat.zero_lt_one hn)]
    exact_mod_cast hcard
  · intro j
    exact mem_compOf_iff n (multiAdj n isNlos d tOlosLos tNlos)
      (idxMaxComp n (multiAdj n isNlos d tOlosLos tNlos)) hi0n hadj j
  · intro i hi
    rw [clusterMax, hi0max, maxCompSize]
    exact @Finset.le_sup ℕ ℕ _ _ (Finset.range n)
      (fun i => (compOf n (multiAdj n isNlos d tOlosLos tNlos) i).card) i
      (Finset.mem_range.mpr hi)
  · intro v
    rw [notClusterMax, List.mem_filter, List.mem_range]
    constructor
    · intro ⟨h1, h2⟩
      rw [Bool.not_eq_true', decide_eq_false_iff_not] at h2
      exact ⟨h1, h2⟩
    · intro ⟨h1, h2⟩
      exact ⟨h1, by rw [Bool.not_eq_true', decide_eq_false_iff_not]; exact h2⟩

/-- C2 witness: the all-pairs theorem applied to a concrete 3-vehicle network
(pair (0,1) NLOS at distance 100 < 140, other pairs OLOS/LOS at
distance 10 < 250). -/
theorem claim_C2_main_sim_multi_witness :
    (1 : ℕ) ≤ 3 ∧
    (0 ≤ main_sim_multi 3 (fun k => k == 0)
        (fun k => if k == 0 then 100 else 10) 250 140 ∧
      main_sim_multi 3 (fun k => k == 0)
        (fun k => if k == 0 then 100 else 10) 250 140 ≤ 1) ∧
    (∀ v, v ∈ notClusterMax 3 (multiAdj 3 (fun k => k == 0)
        (fun k => if k == 0 then 100 else 10) 250 140) ↔
      (v < 3 ∧ v ∉ clusterMax 3 (multiAdj 3 (fun k => k == 0)
        (fun k => if k == 0 then 100 else 10) 250 140))) := by
  have h := claim_C2_main_sim_multi 3 (fun k => k == 0)
    (fun k => if k == 0 then 100 else 10) 250 140 (by decide)
  exact ⟨by decide, ⟨h.2.2.1, h.2.2.2.1⟩, h.2.2.2.2.2.2⟩

/-! ## The maximum-distance cutoff (C5) -/

/-- Modelled from the spec: `prop.veh_cons_are_nlos_all(points, buildings,
max_dist)` (`propagation.py` is not among the sources) runs the geometry NLOS
test, except that a pair whose straight-line distance exceeds the `max_dist`
cutoff skips the test and is reported NLOS by default.  `trueNlos` is the
cutoff-free geometry test. -/
def nlosWithCutoff (trueNlos : ℕ → Bool) (d : ℕ → ℚ) (cutoff : ℚ) (k : ℕ) : Bool :=
  if cutoff < d k then true else trueNlos k

theorem isInRangeB_eq_false_of_ge (m : ℕ) (isNlos : ℕ → Bool) (d : ℕ → ℚ)
    (tOlosLos tNlos : ℚ) (k : ℕ) (hk : m ≤ k) :
    isInRangeB m isNlos d tOlosLos tNlos k = false := by
  cases h : isInRangeB m isNlos d tOlosLos tNlos k
  · rfl
  · exfalso
    rw [isInRangeB] at h
    have hmem : k ∈ idxsInRange m isNlos d tOlosLos tNlos := by
      have : (idxsInRange m isNlos d tOlosLos tNlos).contains k = true ↔
          k ∈ idxsInRange m isNlos d tOlosLos tNlos := by simp
      exact this.mp h
    rw [idxsInRange, List.mem_append] at hmem
    rcases hmem with hmem | hmem
    · have := List.mem_range.mp (List.mem_of_mem_filter
        (List.mem_of_mem_filter hmem))
      omega
    · have := List.mem_range.mp (List.mem_of_mem_filter
        (List.mem_of_mem_filter hmem))
      omega

/-- C5: with cutoff `max(max_dist_nlos, max_dist_olos_los)`, pairs within the
cutoff keep their cutoff-free classification; pairs beyond it fail both range
thresholds whatever their classification; and the in-range adjacency — hence
the connectivity ratio — is identical to the cutoff-free computation. -/
theorem claim_C5_cutoff_equiv (n : ℕ) (trueNlos : ℕ → Bool) (d : ℕ → ℚ)
    (tOlosLos tNlos : ℚ) :
    (∀ k, d k ≤ max tNlos tOlosLos →
      nlosWithCutoff trueNlos d (max tNlos tOlosLos) k = trueNlos k) ∧
    (∀ k, max tNlos tOlosLos < d k → ¬(d k < tNlos) ∧ ¬(d k < tOlosLos)) ∧
    multiAdj n (nlosWithCutoff trueNlos d (max tNlos tOlosLos)) d tOlosLos tNlos =
      multiAdj n trueNlos d tOlosLos tNlos ∧
    main_sim_multi n (nlosWithCutoff trueNlos d (max tNlos tOlosLos)) d tOlosLos
        tNlos =
      main_sim_multi n trueNlos d tOlosLos tNlos := by
  have h1 : ∀ k, d k ≤ max tNlos tOlosLos →
      nlosWithCutoff trueNlos d (max tNlos tOlosLos) k = trueNlos k := by
    intro k hk
    rw [nlosWithCutoff, if_neg (not_lt.mpr hk)]
  have h2 : ∀ k, max tNlos tOlosLos < d k → ¬(d k < tNlos) ∧ ¬(d k < tOlosLos) := by
    intro k hk
    constructor
    · exact not_lt.mpr ((le_max_left tNlos tOlosLos).trans hk.le)
    · exact not_lt.mpr ((le_max_right tNlos tOlosLos).trans hk.le)
  have hpoint : ∀ k,
      isInRangeB (pairCount n) (nlosWithCutoff trueNlos d (max tNlos tOlosLos)) d
        tOlosLos tNlos k =
      isInRangeB (pairCount n) trueNlos d tOlosLos tNlos k := by
    intro k
    by_cases hk : k < pairCount n
    · have hiff1 := isInRangeB_iff (pairCount n)
        (nlosWithCutoff trueNlos d (max tNlos tOlosLos)) d tOlosLos tNlos k hk
      have hiff2 := isInRangeB_iff (pairCount n) trueNlos d tOlosLos tNlos k hk
      by_cases hcut : max tNlos tOlosLos < d k
      · obtain ⟨c1, c2⟩ := h2 k hcut
        have e1 : isInRangeB (pairCount n)
            (nlosWithCutoff trueNlos d (max tNlos tOlosLos)) d tOlosLos tNlos k
            = false := by
          cases hb : isInRangeB (pairCount n)
            (nlosWithCutoff trueNlos d (max tNlos tOlosLos)) d tOlosLos tNlos k
          · rfl
          · exfalso
            have := hiff1.mp hb
            split at this
            · exact c1 this
            · exact c2 this
        have e2 : isInRangeB (pairCount n) trueNlos d tOlosLos tNlos k = false := by
          cases hb : isInRangeB (pairCount n) trueNlos d tOlosLos tNlos k
          · rfl
          · exfalso
            have := hiff2.mp hb
            split at this
            · exact c1 this
            · exact c2 this
        rw [e1, e2]
      · have hfe : nlosWithCutoff trueNlos d (max tNlos tOlosLos) k = trueNlos k :=
          h1 k (not_lt.mp hcut)
        rw [hfe] at hiff1
        have := hiff1.trans hiff2.symm
        cases hb1 : isInRangeB (pairCount n)
            (nlosWithCutoff trueNlos d (max tNlos tOlosLos)) d tOlosLos tNlos k
        · cases hb2 : isInRangeB (pairCount n) trueNlos d tOlosLos tNlos k
          · rfl
          · exact absurd (this.mpr hb2) (by rw [hb1]; exact Bool.false_ne_true)
        · exact (this.mp hb1).symm
    · rw [isInRangeB_eq_false_of_ge _ _ _ _ _ _ (not_lt.mp hk),
        isInRangeB_eq_false_of_ge _ _ _ _ _ _ (not_lt.mp hk)]
  have h3 : multiAdj n (nlosWithCutoff trueNlos d (max tNlos tOlosLos)) d tOlosLos
      tNlos = multiAdj n trueNlos d tOlosLos tNlos := by
    funext i j
    rw [multiAdj, multiAdj, hpoint]
  exact ⟨h1, h2, h3, by rw [main_sim_multi, main_sim_multi, h3]⟩

/-- C5 witness: the cutoff equivalence at a concrete 3-vehicle network where
pair 2 lies beyond the cutoff (distance 300 > max(140, 250)) yet the in-range
adjacency agrees with the cutoff-free one. -/
theorem claim_C5_cutoff_equiv_witness :
    (∀ k, (fun k => if k == (2 : ℕ) then (300 : ℚ) else 10) k ≤ max 140 250 →
      nlosWithCutoff (fun _ => false)
        (fun k => if k == (2 : ℕ) then (300 : ℚ) else 10) (max 140 250) k =
        (fun _ => false) k) ∧
    main_sim_multi 3 (nlosWithCutoff (fun _ => false)
        (fun k => if k == (2 : ℕ) then (300 : ℚ) else 10) (max 140 250))
      (fun k => if k == (2 : ℕ) then (300 : ℚ) else 10) 250 140 =
    main_sim_multi 3 (fun _ => false)
      (fun k => if k == (2 : ℕ) then (300 : ℚ) else 10) 250 140 := by
  have h := claim_C5_cutoff_equiv 3 (fun _ => false)
    (fun k => if k == (2 : ℕ) then (300 : ℚ) else 10) 250 140
  exact ⟨h.1, h.2.2.2⟩

/-! ## Density handling of `prepare_network` (C8) -/

/-- The aborts that the density path can raise: the explicit
`ValueError('Density type not supported')`, the `ValueError` that
`np.random.choice` raises on an invalid probability vector (division by a
zero total length produces NaNs), and the rejection of a negative count. -/
inductive DensityErr : Type where
  | invalidType : DensityErr
  | invalidProbs : DensityErr
  | invalidCount : DensityErr
deriving DecidableEq

/-- python `int()`: truncation toward zero. -/
def truncInt (q : ℚ) : ℤ := if 0 ≤ q then ⌊q⌋ else ⌈q⌉

/-- The `density_type` dispatch of `prepare_network`. -/
def count_veh_of (density_type : String) (density totalLen area : ℚ) :
    Except DensityErr ℤ :=
  if density_type = "absolute" then Except.ok (truncInt density)
  else if density_type = "length" then Except.ok (round (density * totalLen))
  else if density_type = "area" then Except.ok (round (density * area))
  else Except.error DensityErr.invalidType

/-- `choose_random_streets` as called by `prepare_network`, with the
validation numpy performs: `np.random.choice` rejects a probability vector
containing NaNs (`lengths / 0`) or negative entries, and a negative size is
rejected; otherwise the draws of `choose_random_streets` happen. -/
def choose_random_streets_checked (lengths : List ℚ) (count : ℤ) (us : List ℚ) :
    Except DensityErr (List ℕ) :=
  if count < 0 then Except.error DensityErr.invalidCount
  else if lengths.sum = 0 then Except.error DensityErr.invalidProbs
  else if ∀ l ∈ lengths, 0 ≤ l then
    Except.ok (choose_random_streets lengths count.toNat us)
  else Except.error DensityErr.invalidProbs

/-- The density-to-vehicle-placement path of `prepare_network`. -/
def prepare_network_density (density_type : String) (density : ℚ)
    (lengths : List ℚ) (area : ℚ) (us : List ℚ) : Except DensityErr (List ℕ) :=
  match count_veh_of density_type density lengths.sum area with
  | Except.error e => Except.error e
  | Except.ok c => choose_random_streets_checked lengths c us

/-- C8 counterexample: an `absolute` density over an all-zero-length street
network also aborts (the division by the zero total length happens in
`choose_random_streets` for every density type), contradicting "no other
density input aborts". -/
theorem claim_C8_counterexample :
    prepare_network_density "absolute" 5 [0, 0] 0 [] =
      Except.error DensityErr.invalidProbs := by
  unfold prepare_network_density count_veh_of truncInt choose_random_streets_checked
  norm_num

/-- C8 (amended): with nonnegative lengths, density and area, the density
path aborts exactly when the density type is unrecognized (the
`InvalidDensity` of the spec) or the total street length is zero — the
zero-total abort happens for ALL density types, not only the length/area
based ones, because street selection divides by the total. -/
theorem claim_C8_prepare_network (density_type : String) (density : ℚ)
    (lengths : List ℚ) (area : ℚ) (us : List ℚ)
    (hnn : ∀ l ∈ lengths, 0 ≤ l) (hd : 0 ≤ density) (ha : 0 ≤ area) :
    ((∃ e, prepare_network_density density_type density lengths area us =
        Except.error e) ↔
      (density_type ∉ (["absolute", "length", "area"] : List String) ∨
        lengths.sum = 0)) ∧
    (density_type ∉ (["absolute", "length", "area"] : List String) →
      prepare_network_density density_type density lengths area us =
        Except.error DensityErr.invalidType) ∧
    (density_type ∈ (["absolute", "length", "area"] : List String) →
      lengths.sum = 0 →
      prepare_network_density density_type density lengths area us =
        Except.error DensityErr.invalidProbs) := by
  have hsumnn : 0 ≤ lengths.sum := List.sum_nonneg hnn
  have hcount : ∀ c, count_veh_of density_type density lengths.sum area =
      Except.ok c → 0 ≤ c := by
    intro c hc
    rw [count_veh_of] at hc
    split at hc
    · rw [Except.ok.injEq] at hc
      subst hc
      rw [truncInt, if_pos hd]
      exact Int.floor_nonneg.mpr hd
    · split at hc
      · rw [Except.ok.injEq] at hc
        subst hc
        have : (0 : ℚ) ≤ density * lengths.sum := mul_nonneg hd hsumnn
        rw [round_eq]
        exact Int.floor_nonneg.mpr (by linarith)
      · split at hc
        · rw [Except.ok.injEq] at hc
          subst hc
          have : (0 : ℚ) ≤ density * area := mul_nonneg hd ha
          rw [round_eq]
          exact Int.floor_nonneg.mpr (by linarith)
        · exact absurd hc (by simp)
  have hmemtype : density_type ∈ (["absolute", "length", "area"] : List String) ↔
      (density_type = "absolute" ∨ density_type = "length" ∨
        density_type = "area") := by
    simp
  have hbr2 : density_type ∉ (["absolute", "length", "area"] : List String) →
      prepare_network_density density_type density lengths area us =
        Except.error DensityErr.invalidType := by
    intro hno
    rw [hmemtype] at hno
    push_neg at hno
    rw [prepare_network_density, count_veh_of, if_neg hno.1, if_neg hno.2.1,
      if_neg hno.2.2]
  have hok : density_type ∈ (["absolute", "length", "area"] : List String) →
      ∃ c, count_veh_of density_type density lengths.sum area = Except.ok c := by
    intro hmem
    rcases hmemtype.mp hmem with h | h | h
    · exact ⟨truncInt density, by rw [count_veh_of, if_pos h]⟩
    · rcases eq_or_ne density_type "absolute" with h2 | h2
      · exact ⟨truncInt density, by rw [count_veh_of, if_pos h2]⟩
      · exact ⟨round (density * lengths.sum),
          by rw [count_veh_of, if_neg h2, if_pos h]⟩
    · rcases eq_or_ne density_type "absolute" with h2 | h2
      · exact ⟨truncInt density, by rw [count_veh_of, if_pos h2]⟩
      · rcases eq_or_ne density_type "length" with h3 | h3
        · exact ⟨round (density * lengths.sum),
            by rw [count_veh_of, if_neg h2, if_pos h3]⟩
        · exact ⟨round (density * area),
            by rw [count_veh_of, if_neg h2, if_neg h3, if_pos h]⟩
  have hbr3 : density_type ∈ (["absolute", "length", "area"] : List String) →
      lengths.sum = 0 →
      prepare_network_density density_type density lengths area us =
        Except.error DensityErr.invalidProbs := by
    intro hmem hzero
    obtain ⟨c, hc⟩ := hok hmem
    have hpnd : prepare_network_density density_type density lengths area us =
        choose_random_streets_checked lengths c us := by
      rw [prepare_network_density, hc]
    rw [hpnd]
    unfold choose_random_streets_checked
    rw [if_neg (not_lt.mpr (hcount c hc)), if_pos hzero]
  refine ⟨?_, hbr2, hbr3⟩
  constructor
  · intro ⟨e, he⟩
    by_contra hno
    push_neg at hno
    obtain ⟨hmem, hzero⟩ := hno
    obtain ⟨c, hc⟩ := hok hmem
    have hpnd : prepare_network_density density_type density lengths area us =
        choose_random_streets_checked lengths c us := by
      rw [prepare_network_density, hc]
    rw [hpnd] at he
    unfold choose_random_streets_checked at he
    rw [if_neg (not_lt.mpr (hcount c hc)), if_neg hzero, if_pos hnn] at he
    exact Except.noConfusion he
  · intro h
    rcases h with h | h
    · exact ⟨DensityErr.invalidType, hbr2 h⟩
    · by_cases hmem : density_type ∈ (["absolute", "length", "area"] : List String)
      · exact ⟨DensityErr.invalidProbs, hbr3 hmem h⟩
      · exact ⟨DensityErr.invalidType, hbr2 hmem⟩

/-- C8 witness: the amended abort characterization on concrete inputs:
`absolute` density 3 over streets of lengths [2, 4] with uniform draws
succeeds (no abort), and an unknown type aborts. -/
theorem claim_C8_prepare_network_witness :
    (¬∃ e, prepare_network_density "absolute" 3 [2, 4] 0 [0, 0, 0] =
      Except.error e) ∧
    prepare_network_density "speed" 3 [2, 4] 0 [] =
      Except.error DensityErr.invalidType := by
  have h1 := claim_C8_prepare_network "absolute" 3 [2, 4] 0 [0, 0, 0]
    (by norm_num) (by norm_num) le_rfl
  have h2 := claim_C8_prepare_network "speed" 3 [2, 4] 0 []
    (by norm_num) (by norm_num) le_rfl
  constructor
  · intro hex
    rcases h1.1.mp hex with hmem | hzero
    · exact hmem (by simp)
    · norm_num at hzero
  · exact h2.2.1 (by simp)

/-! ## Single-center pathlosses and in/out-range keys (C9)

`main_sim` stores `-pathloss_olos(...)` and `-pathloss_los(...)` (both
negated, see the `TODO: why - ?` in the source), the positive
`pathloss_nlos(...)` for orthogonal NLOS links and `np.Infinity` for parallel
ones, then keys `in_range = other[pathlosses < max_pl]`. -/

/-- A stored pathloss: a finite value or `np.Infinity`. -/
inductive PVal : Type where
  | fin (q : ℚ) : PVal
  | inf : PVal
deriving DecidableEq

/-- Comparison of a stored pathloss against `max_pl` (`pathlosses < max_pl`;
infinity compares greater than everything). -/
def PVal.ltQ : PVal → ℚ → Bool
  | PVal.fin q, m => decide (q < m)
  | PVal.inf, _ => false

/-- Two equally long lists filtered by the same mask keep equal lengths. -/
theorem maskFilter_length_eq {α β : Type} :
    ∀ (xs : List α) (ys : List β) (m : List Bool), xs.length = ys.length →
      (maskFilter xs m).length = (maskFilter ys m).length := by
  intro xs
  induction xs with
  | nil =>
    intro ys m h
    cases ys with
    | nil => rfl
    | cons b ys => exact absurd h (by simp)
  | cons a xs ih =>
    intro ys m h
    cases ys with
    | nil => exact absurd h (by simp)
    | cons b ys =>
      cases m with
      | nil => rfl
      | cons c m =>
        have h2 : xs.length = ys.length := by
          rw [List.length_cons, List.length_cons] at h
          omega
        cases c with
        | true =>
          rw [maskFilter_cons_true, maskFilter_cons_true, List.length_cons,
            List.length_cons, ih ys m h2]
        | false =>
          rw [maskFilter_cons_false, maskFilter_cons_false, ih ys m h2]

/-- Filtering a list by a mask computed from its own elements selects exactly
the elements satisfying the predicate. -/
theorem mem_maskFilter_map {α : Type} (xs : List α) (f : α → Bool) (x : α) :
    x ∈ maskFilter xs (xs.map f) ↔ x ∈ xs ∧ f x = true := by
  induction xs with
  | nil => simp
  | cons a xs ih =>
    rw [List.map_cons]
    cases hfa : f a with
    | true =>
      rw [maskFilter_cons_true, List.mem_cons, ih, List.mem_cons]
      constructor
      · intro h
        rcases h with rfl | ⟨h1, h2⟩
        · exact ⟨Or.inl rfl, hfa⟩
        · exact ⟨Or.inr h1, h2⟩
      · intro ⟨h1, h2⟩
        rcases h1 with rfl | h1
        · exact Or.inl rfl
        · exact Or.inr ⟨h1, h2⟩
    | false =>
      rw [maskFilter_cons_false, ih, List.mem_cons]
      constructor
      · intro ⟨h1, h2⟩
        exact ⟨Or.inr h1, h2⟩
      · intro ⟨h1, h2⟩
        rcases h1 with rfl | h1
        · exact absurd h2 (by rw [hfa]; exact Bool.false_ne_true)
        · exact ⟨h1, h2⟩

theorem maskInvert_map {α : Type} (xs : List α) (f : α → Bool) :
    maskInvert (xs.map f) = xs.map (fun x => !(f x)) := by
  rw [maskInvert, List.map_map]
  rfl

theorem mem_otherIdxs_lt (count idxCenter v : ℕ)
    (h : v ∈ otherIdxs count idxCenter) : v < count := by
  rw [otherIdxs] at h
  exact List.mem_range.mp (List.mem_of_mem_filter h)

/-- The inputs of one `main_sim` run: the vehicle count, the center index,
the three external classifier masks, the link distances, and the three
external pathloss formulas. -/
structure MainSimIn : Type where
  count : ℕ
  idxCenter : ℕ
  isNlos : List Bool
  isOlos : List Bool
  isOrth : List Bool
  dOlosLos : List ℚ
  dOrthRx : List ℚ
  dOrthTx : List ℚ
  plOlos : ℚ → ℚ
  plLos : ℚ → ℚ
  plNlos : ℚ → ℚ → ℚ

namespace MainSimIn

/-- The `'other'` key. -/
def other (A : MainSimIn) : List ℕ := otherIdxs A.count A.idxCenter

/-- The `'olos_los'` key. -/
def olosLos (A : MainSimIn) : List ℕ := olosLosKey A.count A.idxCenter A.isNlos

/-- The `'nlos'` key. -/
def nlosK (A : MainSimIn) : List ℕ := nlosKey A.count A.idxCenter A.isNlos

/-- The `'olos'` key. -/
def olos (A : MainSimIn) : List ℕ := olosKey A.count A.idxCenter A.isNlos A.isOlos

/-- The `'los'` key. -/
def los (A : MainSimIn) : List ℕ := losKey A.count A.idxCenter A.isNlos A.isOlos

/-- The `'orth'` key. -/
def orth (A : MainSimIn) : List ℕ := orthKey A.count A.idxCenter A.isNlos A.isOrth

/-- The `'par'` key. -/
def par (A : MainSimIn) : List ℕ := parKey A.count A.idxCenter A.isNlos A.isOrth

/-- `pathlosses_olos = -p_loss.pathloss_olos(distances_olos_los[is_olos])`. -/
def valsOlos (A : MainSimIn) : List PVal :=
  (maskFilter A.dOlosLos A.isOlos).map (fun q => PVal.fin (-(A.plOlos q)))

/-- `pathlosses_los = -p_loss.pathloss_los(distances_olos_los[is_los])`. -/
def valsLos (A : MainSimIn) : List PVal :=
  (maskFilter A.dOlosLos (maskInvert A.isOlos)).map (fun q => PVal.fin (-(A.plLos q)))

/-- `pathlosses_orth = p_loss.pathloss_nlos(distances_orth_rx,
distances_orth_tx)` (not negated). -/
def valsOrth (A : MainSimIn) : List PVal :=
  (A.dOrthRx.zip A.dOrthTx).map (fun p => PVal.fin (A.plNlos p.1 p.2))

/-- The pathloss array after the four `set_pathlosses` writes of `main_sim`
(olos, los, orth, then `np.Infinity` for par) on the `allocate(count_veh)`
zero array. -/
def pl (A : MainSimIn) : List PVal :=
  writeAt (writeAt (writeAt (writeAt (List.replicate A.count (PVal.fin 0))
    (A.olos.zip A.valsOlos)) (A.los.zip A.valsLos)) (A.orth.zip A.valsOrth))
    (A.par.map (fun i => (i, PVal.inf)))

/-- `idxs_in_range = vehs.get_pathlosses('other') < max_pl`. -/
def inRangeMask (A : MainSimIn) (maxPl : ℚ) : List Bool :=
  A.other.map (fun v => PVal.ltQ (A.pl.getD v (PVal.fin 0)) maxPl)

/-- `vehs.add_key('in_range', vehs.get_idxs('other')[idxs_in_range])`. -/
def in_range (A : MainSimIn) (maxPl : ℚ) : List ℕ :=
  maskFilter A.other (A.inRangeMask maxPl)

/-- `vehs.add_key('out_range', vehs.get_idxs('other')[np.invert(...)])`. -/
def out_range (A : MainSimIn) (maxPl : ℚ) : List ℕ :=
  maskFilter A.other (maskInvert (A.inRangeMask maxPl))

end MainSimIn

theorem mem_in_range_iff (A : MainSimIn) (maxPl : ℚ) (v : ℕ) :
    v ∈ A.in_range maxPl ↔
      v ∈ A.other ∧ PVal.ltQ (A.pl.getD v (PVal.fin 0)) maxPl = true := by
  rw [MainSimIn.in_range, MainSimIn.inRangeMask]
  exact mem_maskFilter_map A.other _ v

theorem mem_out_range_iff (A : MainSimIn) (maxPl : ℚ) (v : ℕ) :
    v ∈ A.out_range maxPl ↔
      v ∈ A.other ∧ PVal.ltQ (A.pl.getD v (PVal.fin 0)) maxPl = false := by
  rw [MainSimIn.out_range, MainSimIn.inRangeMask, maskInvert_map]
  rw [mem_maskFilter_map]
  constructor
  · intro ⟨h1, h2⟩
    rw [Bool.not_eq_true'] at h2
    exact ⟨h1, h2⟩
  · intro ⟨h1, h2⟩
    exact ⟨h1, by rw [Bool.not_eq_true']; exact h2⟩

/-- The stored pathloss of an `'olos'` vehicle is one of the negated OLOS
values: the later los/orth/par writes are at disjoint indices. -/
theorem pl_get_olos (A : MainSimIn) (hD : A.dOlosLos.length = A.olosLos.length)
    (v : ℕ) (hv : v ∈ A.olos) : ∃ w ∈ A.valsOlos, A.pl.get? v = some w := by
  have hlv : A.valsOlos.length = A.olos.length := by
    rw [MainSimIn.valsOlos, List.length_map]
    exact maskFilter_length_eq A.dOlosLos (olosLosKey A.count A.idxCenter A.isNlos)
      A.isOlos hD
  have hndolos : A.olos.Nodup :=
    maskFilter_nodup _ (olosLosKey_nodup A.count A.idxCenter A.isNlos)
  obtain ⟨⟨t, ht⟩, hvt⟩ := List.mem_iff_get.mp hv
  have hvc : v < A.count :=
    mem_otherIdxs_lt A.count A.idxCenter v
      (mem_of_mem_maskFilter (mem_of_mem_maskFilter hv))
  have hzl : (A.olos.zip A.valsOlos).length = A.olos.length := by
    rw [List.length_zip, hlv, Nat.min_self]
  have ht2 : t < (A.olos.zip A.valsOlos).length := hzl ▸ ht
  have ht3 : t < A.valsOlos.length := hlv ▸ ht
  have hfst : (A.olos.zip A.valsOlos).map Prod.fst = A.olos :=
    List.map_fst_zip _ _ hlv.ge
  have hnd2 : ((A.olos.zip A.valsOlos).map Prod.fst).Nodup := by
    rw [hfst]
    exact hndolos
  have hget : (A.olos.zip A.valsOlos).get ⟨t, ht2⟩ =
      (A.olos.get ⟨t, ht⟩, A.valsOlos.get ⟨t, ht3⟩) := by
    apply List.get_zip
  have h1 := @writeAt_get?_mem PVal (List.replicate A.count (PVal.fin 0))
    (A.olos.zip A.valsOlos) hnd2 t ht2
    (by rw [hget, hvt]; simpa using hvc)
  rw [hget, hvt] at h1
  have hnotlos : ∀ q ∈ A.los.zip A.valsLos, q.1 ≠ v := by
    intro q hq heq
    have hql : q.1 ∈ A.los := (List.of_mem_zip hq).1
    exact not_mem_maskFilter_both (olosLosKey_nodup A.count A.idxCenter A.isNlos)
      hv (heq ▸ hql)
  have hnotorth : ∀ q ∈ A.orth.zip A.valsOrth, q.1 ≠ v := by
    intro q hq heq
    have hqn : q.1 ∈ A.nlosK := mem_of_mem_maskFilter (List.of_mem_zip hq).1
    exact not_mem_maskFilter_both (otherIdxs_nodup A.count A.idxCenter)
      (heq ▸ hqn) (mem_of_mem_maskFilter hv)
  have hnotpar : ∀ q ∈ A.par.map (fun i => (i, PVal.inf)), q.1 ≠ v := by
    intro q hq heq
    obtain ⟨i, hi, rfl⟩ := List.mem_map.mp hq
    have hqn : i ∈ A.nlosK := mem_of_mem_maskFilter hi
    exact not_mem_maskFilter_both (otherIdxs_nodup A.count A.idxCenter)
      (heq ▸ hqn) (mem_of_mem_maskFilter hv)
  refine ⟨A.valsOlos.get ⟨t, ht3⟩, List.get_mem _ _ _, ?_⟩
  rw [MainSimIn.pl, writeAt_get?_not_mem hnotpar, writeAt_get?_not_mem hnotorth,
    writeAt_get?_not_mem hnotlos]
  exact h1

/-- The stored pathloss of a `'los'` vehicle is one of the negated LOS
values. -/
theorem pl_get_los (A : MainSimIn) (hD : A.dOlosLos.length = A.olosLos.length)
    (v : ℕ) (hv : v ∈ A.los) : ∃ w ∈ A.valsLos, A.pl.get? v = some w := by
  have hlv : A.valsLos.length = A.los.length := by
    rw [MainSimIn.valsLos, List.length_map]
    exact maskFilter_length_eq A.dOlosLos (olosLosKey A.count A.idxCenter A.isNlos)
      (maskInvert A.isOlos) hD
  have hndlos : A.los.Nodup :=
    maskFilter_nodup _ (olosLosKey_nodup A.count A.idxCenter A.isNlos)
  obtain ⟨⟨t, ht⟩, hvt⟩ := List.mem_iff_get.mp hv
  have hvc : v < A.count :=
    mem_otherIdxs_lt A.count A.idxCenter v
      (mem_of_mem_maskFilter (mem_of_mem_maskFilter hv))
  have hzl : (A.los.zip A.valsLos).length = A.los.length := by
    rw [List.length_zip, hlv, Nat.min_self]
  have ht2 : t < (A.los.zip A.valsLos).length := hzl ▸ ht
  have ht3 : t < A.valsLos.length := hlv ▸ ht
  have hfst : (A.los.zip A.valsLos).map Prod.fst = A.los :=
    List.map_fst_zip _ _ hlv.ge
  have hnd2 : ((A.los.zip A.valsLos).map Prod.fst).Nodup := by
    rw [hfst]
    exact hndlos
  have hget : (A.los.zip A.valsLos).get ⟨t, ht2⟩ =
      (A.los.get ⟨t, ht⟩, A.valsLos.get ⟨t, ht3⟩) := by
    apply List.get_zip
  have hbase : (writeAt (List.replicate A.count (PVal.fin 0))
      (A.olos.zip A.valsOlos)).length = A.count := by
    rw [writeAt_length, List.length_replicate]
  have h2 := @writeAt_get?_mem PVal
    (writeAt (List.replicate A.count (PVal.fin 0)) (A.olos.zip A.valsOlos))
    (A.los.zip A.valsLos) hnd2 t ht2
    (by rw [hget, hvt, hbase]; exact hvc)
  rw [hget, hvt] at h2
  have hnotorth : ∀ q ∈ A.orth.zip A.valsOrth, q.1 ≠ v := by
    intro q hq heq
    have hqn : q.1 ∈ A.nlosK := mem_of_mem_maskFilter (List.of_mem_zip hq).1
    exact not_mem_maskFilter_both (otherIdxs_nodup A.count A.idxCenter)
      (heq ▸ hqn) (mem_of_mem_maskFilter hv)
  have hnotpar : ∀ q ∈ A.par.map (fun i => (i, PVal.inf)), q.1 ≠ v := by
    intro q hq heq
    obtain ⟨i, hi, rfl⟩ := List.mem_map.mp hq
    have hqn : i ∈ A.nlosK := mem_of_mem_maskFilter hi
    exact not_mem_maskFilter_both (otherIdxs_nodup A.count A.idxCenter)
      (heq ▸ hqn) (mem_of_mem_maskFilter hv)
  refine ⟨A.valsLos.get ⟨t, ht3⟩, List.get_mem _ _ _, ?_⟩
  rw [MainSimIn.pl, writeAt_get?_not_mem hnotpar, writeAt_get?_not_mem hnotorth]
  exact h2

/-- C9: because `main_sim` stores the NEGATED external OLOS/LOS pathloss
values, nonnegative external pathloss functions and a positive `max_pl` put
every `'olos_los'` vehicle into `'in_range'` (its stored pathloss is
`≤ 0 < max_pl`), so `'out_range'` can only contain NLOS vehicles. -/
theorem claim_C9_mainSim_out_range_nlos (A : MainSimIn) (maxPl : ℚ)
    (hN : A.isNlos.length = A.other.length)
    (hO : A.isOlos.length = A.olosLos.length)
    (hD : A.dOlosLos.length = A.olosLos.length)
    (hplO : ∀ q, 0 ≤ A.plOlos q) (hplL : ∀ q, 0 ≤ A.plLos q)
    (hmax : 0 < maxPl) :
    (∀ v ∈ A.olosLos, v ∈ A.in_range maxPl) ∧
    (∀ v ∈ A.out_range maxPl, v ∈ A.nlosK) := by
  have hfirst : ∀ v ∈ A.olosLos, v ∈ A.in_range maxPl := by
    intro v hvol
    have hother : v ∈ A.other := mem_of_mem_maskFilter hvol
    rcases @mem_maskFilter_or_invert ℕ
        (olosLosKey A.count A.idxCenter A.isNlos) A.isOlos hO.ge v hvol with
      hvo | hvl
    · obtain ⟨w, hwmem, hweq⟩ := pl_get_olos A hD v hvo
      obtain ⟨q, _, rfl⟩ := List.mem_map.mp hwmem
      rw [mem_in_range_iff]
      refine ⟨hother, ?_⟩
      rw [List.getD_eq_getD_get?, hweq]
      show PVal.ltQ (PVal.fin (-(A.plOlos q))) maxPl = true
      rw [PVal.ltQ]
      exact decide_eq_true (by linarith [hplO q])
    · obtain ⟨w, hwmem, hweq⟩ := pl_get_los A hD v hvl
      obtain ⟨q, _, rfl⟩ := List.mem_map.mp hwmem
      rw [mem_in_range_iff]
      refine ⟨hother, ?_⟩
      rw [List.getD_eq_getD_get?, hweq]
      show PVal.ltQ (PVal.fin (-(A.plLos q))) maxPl = true
      rw [PVal.ltQ]
      exact decide_eq_true (by linarith [hplL q])
  refine ⟨hfirst, ?_⟩
  intro v hvout
  rw [mem_out_range_iff] at hvout
  obtain ⟨hvo, hmask⟩ := hvout
  rcases @mem_maskFilter_or_invert ℕ (otherIdxs A.count A.idxCenter) A.isNlos
      hN.ge v hvo with hnl | holos
  · exact hnl
  · have hin := hfirst v holos
    rw [mem_in_range_iff] at hin
    rw [hin.2] at hmask
    exact Bool.noConfusion hmask

/-- C9 witness: a concrete 3-vehicle single-center run (vehicle 1 OLOS at
distance 50, vehicle 2 NLOS-orthogonal) with constant nonnegative external
pathlosses and `max_pl = 150`: the OLOS/LOS vehicle 1 is in range and
`out_range` can only contain NLOS vehicles. -/
theorem claim_C9_mainSim_out_range_nlos_witness :
    (MainSimIn.olosLos ⟨3, 0, [false, true], [true], [true], [50], [10], [20],
        fun _ => 1, fun _ => 2, fun a b => a + b⟩ = [1]) ∧
    (∀ v ∈ MainSimIn.olosLos ⟨3, 0, [false, true], [true], [true], [50], [10],
        [20], fun _ => 1, fun _ => 2, fun a b => a + b⟩,
      v ∈ MainSimIn.in_range ⟨3, 0, [false, true], [true], [true], [50], [10],
        [20], fun _ => 1, fun _ => 2, fun a b => a + b⟩ 150) ∧
    (∀ v ∈ MainSimIn.out_range ⟨3, 0, [false, true], [true], [true], [50], [10],
        [20], fun _ => 1, fun _ => 2, fun a b => a + b⟩ 150,
      v ∈ MainSimIn.nlosK ⟨3, 0, [false, true], [true], [true], [50], [10],
        [20], fun _ => 1, fun _ => 2, fun a b => a + b⟩) := by
  have h := claim_C9_mainSim_out_range_nlos
    ⟨3, 0, [false, true], [true], [true], [50], [10], [20],
      fun _ => 1, fun _ => 2, fun a b => a + b⟩ 150
    (by decide) (by decide) (by decide)
    (fun q => by norm_num) (fun q => by norm_num) (by norm_num)
  exact ⟨rfl, h.1, h.2⟩

end V2VOSM
